import Mathlib

/-!
Verification of the redirect-materialization pipeline in `src/main.ts`
(tinymce-docs-generate-redirects-action).

The development shallowly embeds the TypeScript source:

* JS strings are Lean `String`s; the JS `String.prototype` operations used by
  the source (`endsWith`, `startsWith`, `slice(1)`) are defined on the
  underlying character list so that concrete instances evaluate.
* JS objects used as string records (`Record<string, string>`) are
  insertion-ordered association lists `List (String × String)`.
* The `Map<string, Redirect[]>` built by `makeRedirectObjects` is an
  insertion-ordered association list `List (String × List Redirect)`.
* Asynchronous S3 / filesystem effects are oracles passed as functions:
  the S3 client is a function from the command sent to the result of the
  `await client.send(command)` call, and the filesystem probe is a function
  from the probed path to the result of `fs.access`.
* Fallible async functions return `Except String _`: `.ok` is a resolved
  promise, `.error` a rejected one (a thrown non-store error).
* `parallelGenerator` is modelled as a fuel-indexed transition function,
  with an external schedule choosing which settled promise wins each
  `Promise.race`.  Running out of fuel reports the run as unfinished, so
  "the run never terminates" is expressed as "unfinished for every fuel".
-/

/-! ## JS string primitives used by the source -/

/-- JS `s.endsWith(suf)`.  Defined on the character list so it evaluates. -/
def jsEndsWith (s suf : String) : Bool :=
  suf.data.isSuffixOf s.data

/-- JS `s.startsWith(p)`. -/
def jsStartsWith (s p : String) : Bool :=
  p.data.isPrefixOf s.data

/-- JS `s.slice(1)`: drop the first character. -/
def jsSliceOne (s : String) : String :=
  ⟨s.data.drop 1⟩

/-- Node `path.join(a, b)` for the simple relative sub-paths this program
produces (no `.`/`..` segments appear, so joining is concatenation with a
separator). -/
def pathJoin (a b : String) : String :=
  a ++ "/" ++ b

/-! ## Data model -/

/-- `interface Redirect` from `main.ts`.  The optional `pattern` field is
`Option String`. -/
structure Redirect where
  location : String
  pattern : Option String
  redirect : String
deriving DecidableEq, Repr

/-- Structured store error: the `S3ServiceException` payload the executor
catches and stores on the outcome. -/
structure S3ServiceExceptionE where
  message : String
deriving DecidableEq, Repr

/-- `interface S3Operation`: the outcome of one executor invocation. -/
structure S3Operation where
  copied : Bool
  subPath : String
  error : Option S3ServiceExceptionE := none
deriving DecidableEq, Repr

/-- The two commands the executor can send to the store, with the arguments
built in `main.ts`. -/
inductive S3Command where
  | copyObject (bucket copySource key metadataDirective contentType : String)
      (metadata : List (String × String))
  | putObject (bucket key body contentType : String)
      (metadata : List (String × String))
deriving DecidableEq, Repr

/-- Result of `await client.send(command)`: success, a structured
`S3ServiceException`, or any other thrown error. -/
inductive SendResult where
  | success
  | serviceError (e : S3ServiceExceptionE)
  | otherError (msg : String)
deriving DecidableEq, Repr

/-- The S3 client, as an oracle from the command sent to what `send` does. -/
def S3ClientO : Type := S3Command → SendResult

/-- Result of the `fs.access` probe on a path: resolves, or rejects with an
I/O error. -/
inductive FsResult where
  | ok
  | ioError (msg : String)
deriving DecidableEq, Repr

/-- The local filesystem, as an oracle from the probed path to the result of
`fs.access(path, F_OK)`. -/
def FsO : Type := String → FsResult

/-! ## checkS3ObjectExists -/

/-- `checkS3ObjectExists` from `main.ts`: probe the local build directory;
`fs.access(...).then(() => true, () => false)` maps resolution to `true` and
any rejection to `false`.  Both callbacks are supplied, so the returned
promise always resolves: the embedding is a total `Bool`-valued function.
The filesystem (the globally imported `fs` module) is passed as the oracle
`fs`; the client, bucket and prefix arguments are ignored by the source
(`_client`, `_bucket`, `_prefix`). -/
def checkS3ObjectExists (fs : FsO) (buildPath : String) (_client : S3ClientO)
    (_bucket _pfx subPath : String) : Bool :=
  match fs (pathJoin buildPath subPath) with
  | FsResult.ok => true
  | FsResult.ioError _ => false

/-! ## The two store operations -/

/-- JS `{ ...m, k: v }` on a string record: if `k` is already a key its value
is overwritten in place, otherwise `(k, v)` is appended. -/
def recordSet (m : List (String × String)) (k v : String) : List (String × String) :=
  if m.any (fun q => q.1 = k) then
    m.map (fun q => if q.1 = k then (q.1, v) else q)
  else
    m ++ [(k, v)]

/-- `copyS3ObjectWithMetadataAsync`: copy an object onto itself replacing the
metadata.  Returns the command sent together with the settled promise:
`.ok` outcome on success or on a caught `S3ServiceException`, `.error` when
any other error is rethrown. -/
def copyS3ObjectWithMetadataAsync (client : S3ClientO) (bucket pfx subPath : String)
    (metadata : List (String × String)) : List S3Command × Except String S3Operation :=
  let copied := true
  let fullPath := pfx ++ "/" ++ subPath
  let command := S3Command.copyObject bucket (bucket ++ "/" ++ fullPath) fullPath
    "REPLACE" "text/html" metadata
  ([command],
    match client command with
    | SendResult.success => Except.ok { copied := copied, subPath := subPath }
    | SendResult.serviceError e =>
        Except.ok { copied := copied, subPath := subPath, error := some e }
    | SendResult.otherError msg => Except.error msg)

/-- `createNewS3ObjectAsync`: create an object containing the fixed
placeholder HTML body, adding the `redirect-failure` marker key to the
metadata. -/
def createNewS3ObjectAsync (client : S3ClientO) (bucket pfx subPath : String)
    (metadata : List (String × String)) : List S3Command × Except String S3Operation :=
  let copied := false
  let fullPath := pfx ++ "/" ++ subPath
  let command := S3Command.putObject bucket fullPath "<!doctype html><title>?</title>"
    "text/html" (recordSet metadata "redirect-failure" "not-found")
  ([command],
    match client command with
    | SendResult.success => Except.ok { copied := copied, subPath := subPath }
    | SendResult.serviceError e =>
        Except.ok { copied := copied, subPath := subPath, error := some e }
    | SendResult.otherError msg => Except.error msg)

/-- `createOrUpdateS3ObjectAsync`: probe for existence, then take exactly one
of the two operations. -/
def createOrUpdateS3ObjectAsync (fs : FsO) (buildPath : String) (client : S3ClientO)
    (bucket pfx subPath : String) (metadata : List (String × String)) :
    List S3Command × Except String S3Operation :=
  if checkS3ObjectExists fs buildPath client bucket pfx subPath then
    copyS3ObjectWithMetadataAsync client bucket pfx subPath metadata
  else
    createNewS3ObjectAsync client bucket pfx subPath metadata

/-! ## The plan: storage key and metadata document -/

/-- The `locationIndexHtml` step of `generateRedirectObjectsAsync`: append
`index.html`, inserting `/` first unless the location already ends in `/`. -/
def locationIndexHtml (location : String) : String :=
  if jsEndsWith location "/" then location ++ "index.html"
  else location ++ "/index.html"

/-- The `subPath` step: remove a single leading slash if present. -/
def subPathOf (location : String) : String :=
  let s := locationIndexHtml location
  if jsStartsWith s "/" then jsSliceOne s else s

/-- Key `redirect-location-{i}` of the metadata document. -/
def locKey (i : Nat) : String := "redirect-location-" ++ toString i

/-- Key `redirect-pattern-{i}` of the metadata document. -/
def patKey (i : Nat) : String := "redirect-pattern-" ++ toString i

/-- The metadata-construction loop of `generateRedirectObjectsAsync`:
`locationRedirects.forEach((redirect, index) => ...)` with `i = index + 1`.
The `index` argument tracks the 0-based position of the head of the list. -/
def metadataLoop : Nat → List Redirect → List (String × String)
  | _, [] => []
  | index, r :: rest =>
    ((locKey (index + 1), r.redirect) ::
      (match r.pattern with
       | some q => [(patKey (index + 1), q)]
       | none => [])) ++ metadataLoop (index + 1) rest

/-- The metadata document built for one group of redirects (the loop run from
index 0). -/
def metadataOfGroup (rs : List Redirect) : List (String × String) :=
  metadataLoop 0 rs

/-- `generateRedirectObjectsAsync`: one executor invocation per group, in
group order (the generator's yield sequence, with each yielded promise
already started). -/
def generateRedirectObjectsAsync (fs : FsO) (buildPath : String) (client : S3ClientO)
    (bucket pfx : String) (redirectsByLocation : List (String × List Redirect)) :
    List (List S3Command × Except String S3Operation) :=
  redirectsByLocation.map (fun g =>
    createOrUpdateS3ObjectAsync fs buildPath client bucket pfx (subPathOf g.1)
      (metadataOfGroup g.2))

/-! ## Grouping (makeRedirectObjects) -/

/-- One step of the grouping loop in `makeRedirectObjects`:
`if (!m.has(location)) m.set(location, []); m.get(location)?.push(redirect)`.
On an insertion-ordered association list: append the rule to the existing
bucket, or append a fresh singleton bucket at the end. -/
def insertRedirect (m : List (String × List Redirect)) (r : Redirect) :
    List (String × List Redirect) :=
  if m.any (fun q => q.1 = r.location) then
    m.map (fun q => if q.1 = r.location then (q.1, q.2 ++ [r]) else q)
  else
    m ++ [(r.location, [r])]

/-- The `redirects.forEach(...)` grouping loop of `makeRedirectObjects`. -/
def groupRedirects (redirects : List Redirect) : List (String × List Redirect) :=
  redirects.foldl insertRedirect []

/-- Concatenate the groups' rule sequences in group order. -/
def flattenGroups (gs : List (String × List Redirect)) : List Redirect :=
  gs.flatMap Prod.snd

/-- Modelled from the spec: the order in which each distinct `location` is
first encountered in the input list (the spec's description of group
iteration order, used to compare against `groupRedirects`). -/
def firstSeenLocations (redirects : List Redirect) : List String :=
  redirects.foldl (fun acc r => if r.location ∈ acc then acc else acc ++ [r.location]) []

/-- The aggregation loop of `makeRedirectObjects` restricted to the error
tally: `if (error) errorCount++` over the outcome stream, starting from
`let errorCount = 0`. -/
def errorTally (outcomes : List S3Operation) : Nat :=
  outcomes.foldl (fun acc o => if o.error.isSome then acc + 1 else acc) 0

/-- The `parallel` input after `parseInt`: `none` models `NaN`, `some z` an
integer (possibly zero or negative).  `main` throws iff `Number.isNaN`. -/
def parallelInputAccepted (parsed : Option Int) : Bool :=
  parsed.isSome

/-! ## The bounded scheduler (`parallelGenerator`)

The source generator yields already-running promises; `parallelGenerator`
keeps up to `max` of them in numbered slots and races them.  The embedding:

* A source element (`PTask`) either resolves to a value (`ok v`) or rejects
  (`err`).
* A slot holds the promise built by `wrap i (source.next())`:
  `pending v` — a wrapped real task that will settle with `done: false`;
  `done` — the wrap of an exhausted source, settled immediately with
  `done: true`;
  `stuck` — the wrap of a rejecting task: `task.value.then((v) => ...)`
  installs no rejection handler, so the outer promise never settles.
* `Promise.race` returns the first promise to settle.  Which pending task
  settles first depends on I/O timing, so the winner is chosen by an
  external schedule `sched : Nat → Nat` (step-indexed); every real
  completion order corresponds to some schedule, and a `stuck` wrap can
  never win.  Racing a set with no settleable member (in particular the
  empty set, `Promise.race([])`) suspends forever.
* The transition functions take fuel; exhausting fuel reports the run as
  not finished.  A genuine suspension (`raceWinner = none`) also reports
  not finished, for every fuel.
-/

/-- A source element: a promise that resolves to `v`, or rejects. -/
inductive PTask (τ : Type) where
  | ok (v : τ)
  | err
deriving DecidableEq, Repr

/-- Contents of one scheduler slot (the promise built by `wrap`). -/
inductive WrapSlot (τ : Type) where
  | pending (v : τ)
  | done
  | stuck
deriving DecidableEq, Repr

/-- `wrap i (source.next())` on a real source element. -/
def wrapOf {τ : Type} : PTask τ → WrapSlot τ
  | PTask.ok v => WrapSlot.pending v
  | PTask.err => WrapSlot.stuck

/-- Whether the slot's promise eventually settles. -/
def isSettleable {τ : Type} : WrapSlot τ → Bool
  | WrapSlot.pending _ => true
  | WrapSlot.done => true
  | WrapSlot.stuck => false

/-- The value a slot contributes to the output stream when it wins a race
(`if (!v.done) yield v.value`). -/
def slotVals {τ : Type} : WrapSlot τ → List τ
  | WrapSlot.pending v => [v]
  | _ => []

/-- Value contributed by a possibly-null slot. -/
def optSlotVals {τ : Type} : Option (WrapSlot τ) → List τ
  | some s => slotVals s
  | none => []

/-- The settleable slots of the first-phase task array, with their slot
indices (`i` is the index of the list head). -/
def settleablesFrom {τ : Type} (i : Nat) : List (WrapSlot τ) → List (Nat × WrapSlot τ)
  | [] => []
  | s :: rest =>
    (if isSettleable s then [(i, s)] else []) ++ settleablesFrom (i + 1) rest

/-- Settleable slots of the whole task array. -/
def settleables {τ : Type} (tasks : List (WrapSlot τ)) : List (Nat × WrapSlot τ) :=
  settleablesFrom 0 tasks

/-- `await Promise.race(tasks)` in the first loop: the schedule picks which
settleable promise settles first; `none` when no promise in the array can
settle (the race suspends forever). -/
def raceWinner {τ : Type} (sched : Nat → Nat) (t : Nat) (tasks : List (WrapSlot τ)) :
    Option (Nat × WrapSlot τ) :=
  let s := settleables tasks
  s.get? (sched t % s.length)

/-- Settleable entries of the nullable slot array of the drain loop. -/
def settleablesOFrom {τ : Type} (i : Nat) :
    List (Option (WrapSlot τ)) → List (Nat × WrapSlot τ)
  | [] => []
  | none :: rest => settleablesOFrom (i + 1) rest
  | some s :: rest =>
    (if isSettleable s then [(i, s)] else []) ++ settleablesOFrom (i + 1) rest

/-- `await Promise.race(filteredTasks)` in the drain loop. -/
def raceWinnerO {τ : Type} (sched : Nat → Nat) (t : Nat)
    (slots : List (Option (WrapSlot τ))) : Option (Nat × WrapSlot τ) :=
  let s := settleablesOFrom 0 slots
  s.get? (sched t % s.length)

/-- `filteredTasks.length` of the drain loop: number of non-null slots. -/
def occupied {τ : Type} (slots : List (Option (WrapSlot τ))) : Nat :=
  slots.countP Option.isSome

/-- An instant of the run, recorded at each race point: the slot array (all
occupied during the first loop, nullable during the drain loop) and the
source elements not yet pulled. -/
structure SchedState (τ : Type) where
  slots : List (Option (WrapSlot τ))
  remaining : List (PTask τ)
deriving DecidableEq, Repr

/-- Number of started-but-not-completed operations at an instant: slots
holding a pending real task. -/
def inflightOf {τ : Type} (st : SchedState τ) : Nat :=
  st.slots.countP (fun o =>
    match o with
    | some (WrapSlot.pending _) => true
    | _ => false)

/-- The fill phase: `for (let i = 0; i < max; i++) tasks.push(wrap(i, source.next()))`.
Each iteration pulls one source element; an exhausted source yields `done`
wraps. -/
def fillSlots {τ : Type} : Nat → List (PTask τ) → List (WrapSlot τ)
  | 0, _ => []
  | n + 1, [] => WrapSlot.done :: fillSlots n []
  | n + 1, p :: rest => wrapOf p :: fillSlots n rest

/-- Result of the first (`while (true)`) loop. -/
structure PhaseAOut (τ : Type) where
  trace : List (SchedState τ)
  outs : List τ
  next : Option (List (Option (WrapSlot τ)))
  remEnd : List (PTask τ)
  tEnd : Nat

/-- The first loop of `parallelGenerator`: race all `max` slots; a `done`
winner moves the slots to the nullable array (nulling the winner) and breaks;
a pending winner refills its slot from the source and yields.  `fuel = 0`
leaves the loop unfinished. -/
def phaseA {τ : Type} (sched : Nat → Nat) :
    Nat → Nat → List (WrapSlot τ) → List (PTask τ) → PhaseAOut τ
  | 0, t, _, remaining => ⟨[], [], none, remaining, t⟩
  | fuel + 1, t, tasks, remaining =>
    let st : SchedState τ := ⟨tasks.map some, remaining⟩
    match raceWinner sched t tasks with
    | none => ⟨[st], [], none, remaining, t⟩
    | some (i, WrapSlot.done) => ⟨[st], [], some ((tasks.map some).set i none), remaining, t + 1⟩
    | some (_i, WrapSlot.stuck) => ⟨[st], [], none, remaining, t⟩
    | some (i, WrapSlot.pending v) =>
      match remaining with
      | [] =>
        let out := phaseA sched fuel (t + 1) (tasks.set i WrapSlot.done) []
        ⟨st :: out.trace, v :: out.outs, out.next, out.remEnd, out.tEnd⟩
      | p :: rest =>
        let out := phaseA sched fuel (t + 1) (tasks.set i (wrapOf p)) rest
        ⟨st :: out.trace, v :: out.outs, out.next, out.remEnd, out.tEnd⟩

/-- Result of the drain loop. -/
structure PhaseBOut (τ : Type) where
  trace : List (SchedState τ)
  outs : List τ
  finished : Bool

/-- The drain loop of `parallelGenerator`: while some slot is non-null, race
the settleable ones, null the winner, yield its value if it was a real task.
The `rem` argument is carried only to record the (never again consulted)
unpulled source elements in the trace. -/
def phaseB {τ : Type} (sched : Nat → Nat) :
    Nat → Nat → List (Option (WrapSlot τ)) → List (PTask τ) → PhaseBOut τ
  | 0, _, _, _ => ⟨[], [], false⟩
  | fuel + 1, t, slots, rem =>
    if occupied slots = 0 then ⟨[⟨slots, rem⟩], [], true⟩
    else
      match raceWinnerO sched t slots with
      | none => ⟨[⟨slots, rem⟩], [], false⟩
      | some (i, s) =>
        let out := phaseB sched fuel (t + 1) (slots.set i none) rem
        ⟨⟨slots, rem⟩ :: out.trace, slotVals s ++ out.outs, out.finished⟩

/-- The outcome of a whole `parallelGenerator` run as observed by its
consumer: every state at a race point, the yielded values in order, and
whether the generator ran to completion (`finished = false` means the
consumer's `for await` is still suspended — either genuinely forever, or the
fuel ran out). -/
structure RunOut (τ : Type) where
  trace : List (SchedState τ)
  outs : List τ
  finished : Bool
deriving Repr

/-- A complete run of `parallelGenerator max source` under schedule `sched`
and the given fuel: fill the slots, run the first loop, then the drain
loop. -/
def parallelRun {τ : Type} (sched : Nat → Nat) (fuel max : Nat)
    (source : List (PTask τ)) : RunOut τ :=
  let a := phaseA sched fuel 0 (fillSlots max source) (source.drop max)
  match a.next with
  | none => ⟨a.trace, a.outs, false⟩
  | some slots =>
    let b := phaseB sched fuel a.tEnd slots a.remEnd
    ⟨a.trace ++ b.trace, a.outs ++ b.outs, b.finished⟩

/-- `parallelGenerator` as called from `main`: the limit is the JS number
from `parseInt`, so it may be zero or negative; `for (let i = 0; i < max;
i++)` then runs no iteration, which `Int.toNat` captures. -/
def parallelRunInt {τ : Type} (sched : Nat → Nat) (fuel : Nat) (max : Int)
    (source : List (PTask τ)) : RunOut τ :=
  parallelRun sched fuel max.toNat source


/-! ## Derived definitions used by the statements and proofs -/

/-- Modelled from the spec: append `index.html` (inserting `/` first unless
`location` already ends in `/`), then strip any single leading `/`. -/
def subPathSpec (location : String) : String :=
  let appended :=
    if jsEndsWith location "/" then location ++ "index.html"
    else location ++ "/" ++ "index.html"
  if jsStartsWith appended "/" then jsSliceOne appended else appended

/-- Values of the source elements that resolve. -/
def okVals {τ : Type} (source : List (PTask τ)) : List τ :=
  source.flatMap (fun p =>
    match p with
    | PTask.ok v => [v]
    | PTask.err => [])

/-- Values of the pending tasks held in the first-phase slot array. -/
def pendingVals {τ : Type} (tasks : List (WrapSlot τ)) : List τ :=
  tasks.flatMap slotVals

/-- Values of the pending tasks held in the nullable slot array. -/
def pendingValsO {τ : Type} (slots : List (Option (WrapSlot τ))) : List τ :=
  slots.flatMap optSlotVals

/-- The closed form the grouping loop computes: each first-seen location
paired with all input rules at that location, in input order. -/
def mkGroups (rs : List Redirect) : List (String × List Redirect) :=
  (firstSeenLocations rs).map (fun l => (l, rs.filter (fun r => r.location = l)))

/-! ## Supporting lemmas: plan functions -/

theorem string_append_assoc (a b c : String) : a ++ b ++ c = a ++ (b ++ c) := by
  apply congrArg String.mk
  show (a.data ++ b.data) ++ c.data = a.data ++ (b.data ++ c.data)
  exact List.append_assoc _ _ _

theorem subPathOf_eq_spec (location : String) : subPathOf location = subPathSpec location := by
  unfold subPathOf subPathSpec locationIndexHtml
  have h2 : ("/" ++ "index.html" : String) = "/index.html" := by decide
  rw [string_append_assoc, h2]

/-- Every key of the metadata document is `redirect-location-{i}` or
`redirect-pattern-{i}` for some `i`, hence at least 17 characters long. -/
theorem metadataLoop_key_length {n : Nat} {rs : List Redirect} {k : String}
    (h : k ∈ (metadataLoop n rs).map Prod.fst) : 17 ≤ k.length := by
  induction rs generalizing n with
  | nil => simp [metadataLoop] at h
  | cons r rest ih =>
    rcases hp : r.pattern with _ | q <;>
      simp only [metadataLoop, hp, List.map_append, List.map_cons, List.map_nil,
        List.mem_append, List.mem_cons, List.mem_singleton, List.nil_append,
        List.cons_append, List.not_mem_nil, or_false] at h
    · rcases h with h | h
      · subst h
        have h1 : (locKey (n + 1)).length =
            ("redirect-location-" : String).length + (toString (n + 1)).length :=
          String.length_append _ _
        have h2 : ("redirect-location-" : String).length = 18 := by decide
        omega
      · exact ih h
    · rcases h with h | h | h
      · subst h
        have h1 : (locKey (n + 1)).length =
            ("redirect-location-" : String).length + (toString (n + 1)).length :=
          String.length_append _ _
        have h2 : ("redirect-location-" : String).length = 18 := by decide
        omega
      · subst h
        have h1 : (patKey (n + 1)).length =
            ("redirect-pattern-" : String).length + (toString (n + 1)).length :=
          String.length_append _ _
        have h2 : ("redirect-pattern-" : String).length = 17 := by decide
        omega
      · exact ih h

/-- The plan's metadata never contains the `redirect-failure` marker key, so
the create path genuinely adds a fresh key. -/
theorem metadataOfGroup_no_failure_key (rs : List Redirect) :
    "redirect-failure" ∉ (metadataOfGroup rs).map Prod.fst := by
  intro h
  unfold metadataOfGroup at h
  have := metadataLoop_key_length h
  have hl : ("redirect-failure" : String).length = 16 := by decide
  omega

/-- On a record without the key, the JS spread `{ ...m, k: v }` appends. -/
theorem recordSet_of_not_mem {m : List (String × String)} {k : String}
    (h : k ∉ m.map Prod.fst) (v : String) : recordSet m k v = m ++ [(k, v)] := by
  unfold recordSet
  have : m.any (fun q => q.1 = k) = false := by
    rw [Bool.eq_false_iff]
    intro hc
    rw [List.any_eq_true] at hc
    rcases hc with ⟨q, hq, hq2⟩
    exact h (List.mem_map.mpr ⟨q, hq, by simpa using hq2⟩)
  rw [this]
  simp

/-- Membership characterization of the metadata document: its entries are
exactly, for each rule of the group (0-based position `i`, so 1-based index
`n + i + 1` when the loop starts at `index = n`), the location entry and —
iff that rule has a pattern — the pattern entry. -/
theorem metadataLoop_mem_iff (n : Nat) {rs : List Redirect} {k v : String} :
    (k, v) ∈ metadataLoop n rs ↔
      ∃ i r, rs.get? i = some r ∧
        ((k = locKey (n + i + 1) ∧ v = r.redirect) ∨
         (r.pattern = some v ∧ k = patKey (n + i + 1))) := by
  induction rs generalizing n with
  | nil => simp [metadataLoop]
  | cons r₀ rest ih =>
    constructor
    · intro h
      rcases hp : r₀.pattern with _ | q <;>
        simp only [metadataLoop, hp, List.cons_append, List.nil_append, List.mem_cons] at h
      · rcases h with h | h
        · rw [Prod.mk.injEq] at h
          exact ⟨0, r₀, rfl, Or.inl ⟨h.1, h.2⟩⟩
        · rcases (ih (n + 1)).mp h with ⟨i, r, hr, hd⟩
          refine ⟨i + 1, r, by simpa using hr, ?_⟩
          have harith : n + 1 + i + 1 = n + (i + 1) + 1 := by omega
          rw [harith] at hd
          exact hd
      · rcases h with h | h
        · rw [Prod.mk.injEq] at h
          exact ⟨0, r₀, rfl, Or.inl ⟨h.1, h.2⟩⟩
        · rcases h with h | h
          · rw [Prod.mk.injEq] at h
            refine ⟨0, r₀, rfl, Or.inr ?_⟩
            exact ⟨by rw [hp, h.2], h.1⟩
          · rcases (ih (n + 1)).mp h with ⟨i, r, hr, hd⟩
            refine ⟨i + 1, r, by simpa using hr, ?_⟩
            have harith : n + 1 + i + 1 = n + (i + 1) + 1 := by omega
            rw [harith] at hd
            exact hd
    · rintro ⟨i, r, hr, hd⟩
      cases i with
      | zero =>
        have hr0 : r = r₀ := by simpa using hr.symm
        subst hr0
        rcases hd with ⟨hk, hv⟩ | ⟨hpat, hk⟩
        · subst hk; subst hv
          rcases hp : r.pattern with _ | q <;>
            simp [metadataLoop, hp]
        · subst hk
          rcases hp : r.pattern with _ | q
          · rw [hp] at hpat; exact absurd hpat (by simp)
          · rw [hp] at hpat
            have : q = v := by injection hpat
            subst this
            simp [metadataLoop, hp]
      | succ i =>
        have hr' : rest.get? i = some r := by simpa using hr
        have harith : n + (i + 1) + 1 = n + 1 + i + 1 := by omega
        rw [harith] at hd
        have := (ih (n + 1)).mpr ⟨i, r, hr', hd⟩
        rcases hp : r₀.pattern with _ | q <;>
          simp [metadataLoop, hp, this]

/-! ## Claim C6: storage-key derivation -/

/-- Claim C6: the derived sub-path equals the location with `index.html`
appended (inserting `/` first unless the location already ends in `/`), then
with a single leading `/` stripped if present; in particular `"/a/b"` and
`"/a/b/"` both yield `"a/b/index.html"` and `"a"` yields `"a/index.html"`.
The derivation `subPathOf` is a pure function of the location. -/
theorem subpath_derivation_c6 :
    subPathOf "/a/b" = "a/b/index.html" ∧ subPathOf "/a/b/" = "a/b/index.html" ∧
    subPathOf "a" = "a/index.html" ∧
    ∀ location, subPathOf location = subPathSpec location :=
  ⟨by decide, by decide, by decide, subPathOf_eq_spec⟩

/-! ## Claim C5: metadata document construction -/

/-- Claim C5: the metadata document of a group contains, for the rule at
0-based position `i` (1-based index `i + 1`), the key
`redirect-location-{i+1}` mapped to that rule's redirect, and the key
`redirect-pattern-{i+1}` mapped to its pattern exactly when that specific
rule has a pattern; nothing else is produced.  The second conjunct checks
the spec's worked example. -/
theorem metadata_document_c5 (rs : List Redirect) (k v : String) :
    ((k, v) ∈ metadataOfGroup rs ↔
      ∃ i r, rs.get? i = some r ∧
        ((k = locKey (i + 1) ∧ v = r.redirect) ∨
         (r.pattern = some v ∧ k = patKey (i + 1)))) ∧
    metadataOfGroup [⟨"/x", none, "/y"⟩, ⟨"/x", some "^/x-old$", "/z"⟩] =
      [("redirect-location-1", "/y"), ("redirect-location-2", "/z"),
       ("redirect-pattern-2", "^/x-old$")] := by
  constructor
  · have h := @metadataLoop_mem_iff 0 rs k v
    simpa [metadataOfGroup, Nat.zero_add] using h
  · decide

/-! ## Claim C9: existence probe fails open -/

/-- Claim C9: if the local filesystem probe fails with any I/O error, the
probe returns `false` (the object is treated as not existing) and the
executor takes the create path.  The probe installs both promise callbacks,
so it never throws: it is a total boolean function. -/
theorem probe_fail_open_c9 (fs : FsO) (buildPath : String) (client : S3ClientO)
    (bucket pfx subPath msg : String) (metadata : List (String × String))
    (h : fs (pathJoin buildPath subPath) = FsResult.ioError msg) :
    checkS3ObjectExists fs buildPath client bucket pfx subPath = false ∧
    createOrUpdateS3ObjectAsync fs buildPath client bucket pfx subPath metadata =
      createNewS3ObjectAsync client bucket pfx subPath metadata := by
  have hc : checkS3ObjectExists fs buildPath client bucket pfx subPath = false := by
    unfold checkS3ObjectExists
    rw [h]
  refine ⟨hc, ?_⟩
  unfold createOrUpdateS3ObjectAsync
  rw [hc]
  simp

theorem probe_fail_open_c9_witness :
    checkS3ObjectExists (fun _ => FsResult.ioError "ENOENT") "build"
      (fun _ => SendResult.success) "bk" "p" "k" = false ∧
    createOrUpdateS3ObjectAsync (fun _ => FsResult.ioError "ENOENT") "build"
      (fun _ => SendResult.success) "bk" "p" "k" [] =
      createNewS3ObjectAsync (fun _ => SendResult.success) "bk" "p" "k" [] :=
  probe_fail_open_c9 (fun _ => FsResult.ioError "ENOENT") "build"
    (fun _ => SendResult.success) "bk" "p" "k" "ENOENT" [] rfl

/-! ## Claim C4: executor branching -/

/-- Claim C4: when the probe answers `true` the executor performs exactly the
metadata-replace operation with metadata exactly `metadata` and any returned
outcome has `copied = true`; when it answers `false` the executor performs
exactly the create operation with the fixed placeholder HTML body and
metadata `metadata` plus the single extra key `redirect-failure = not-found`,
and any returned outcome has `copied = false`.  The hypothesis that
`metadata` lacks the marker key holds for every plan metadata document
(`metadataOfGroup_no_failure_key`). -/
theorem executor_branching_c4 (fs : FsO) (buildPath : String) (client : S3ClientO)
    (bucket pfx subPath : String) (metadata : List (String × String))
    (hm : "redirect-failure" ∉ metadata.map Prod.fst) :
    (checkS3ObjectExists fs buildPath client bucket pfx subPath = true →
      createOrUpdateS3ObjectAsync fs buildPath client bucket pfx subPath metadata =
        copyS3ObjectWithMetadataAsync client bucket pfx subPath metadata ∧
      (createOrUpdateS3ObjectAsync fs buildPath client bucket pfx subPath metadata).1 =
        [S3Command.copyObject bucket (bucket ++ "/" ++ (pfx ++ "/" ++ subPath))
          (pfx ++ "/" ++ subPath) "REPLACE" "text/html" metadata] ∧
      ∀ op, (createOrUpdateS3ObjectAsync fs buildPath client bucket pfx subPath metadata).2 =
        Except.ok op → op.copied = true) ∧
    (checkS3ObjectExists fs buildPath client bucket pfx subPath = false →
      createOrUpdateS3ObjectAsync fs buildPath client bucket pfx subPath metadata =
        createNewS3ObjectAsync client bucket pfx subPath metadata ∧
      (createOrUpdateS3ObjectAsync fs buildPath client bucket pfx subPath metadata).1 =
        [S3Command.putObject bucket (pfx ++ "/" ++ subPath)
          "<!doctype html><title>?</title>" "text/html"
          (metadata ++ [("redirect-failure", "not-found")])] ∧
      ∀ op, (createOrUpdateS3ObjectAsync fs buildPath client bucket pfx subPath metadata).2 =
        Except.ok op → op.copied = false) := by
  constructor
  · intro hc
    have he : createOrUpdateS3ObjectAsync fs buildPath client bucket pfx subPath metadata =
        copyS3ObjectWithMetadataAsync client bucket pfx subPath metadata := by
      unfold createOrUpdateS3ObjectAsync
      rw [hc]
      simp
    refine ⟨he, ?_, ?_⟩
    · rw [he]
      rfl
    · intro op hop
      rw [he] at hop
      unfold copyS3ObjectWithMetadataAsync at hop
      rcases hr : client (S3Command.copyObject bucket
          (bucket ++ "/" ++ (pfx ++ "/" ++ subPath)) (pfx ++ "/" ++ subPath)
          "REPLACE" "text/html" metadata) with _ | e | msg <;>
        simp only [hr] at hop <;> first
        | (injection hop with hop2; rw [← hop2])
        | cases hop
  · intro hc
    have he : createOrUpdateS3ObjectAsync fs buildPath client bucket pfx subPath metadata =
        createNewS3ObjectAsync client bucket pfx subPath metadata := by
      unfold createOrUpdateS3ObjectAsync
      rw [hc]
      simp
    refine ⟨he, ?_, ?_⟩
    · rw [he]
      unfold createNewS3ObjectAsync
      rw [recordSet_of_not_mem hm]
    · intro op hop
      rw [he] at hop
      unfold createNewS3ObjectAsync at hop
      rcases hr : client (S3Command.putObject bucket (pfx ++ "/" ++ subPath)
          "<!doctype html><title>?</title>" "text/html"
          (recordSet metadata "redirect-failure" "not-found")) with _ | e | msg <;>
        simp only [hr] at hop <;> first
        | (injection hop with hop2; rw [← hop2])
        | cases hop

theorem executor_branching_c4_witness :
    ((createOrUpdateS3ObjectAsync (fun _ => FsResult.ok) "build" (fun _ => SendResult.success)
        "bk" "p" "k" [("redirect-location-1", "/y")]).1 =
      [S3Command.copyObject "bk" ("bk" ++ "/" ++ ("p" ++ "/" ++ "k")) ("p" ++ "/" ++ "k")
        "REPLACE" "text/html" [("redirect-location-1", "/y")]]) ∧
    ((createOrUpdateS3ObjectAsync (fun _ => FsResult.ioError "e") "build"
        (fun _ => SendResult.success) "bk" "p" "k" [("redirect-location-1", "/y")]).1 =
      [S3Command.putObject "bk" ("p" ++ "/" ++ "k") "<!doctype html><title>?</title>"
        "text/html" ([("redirect-location-1", "/y")] ++ [("redirect-failure", "not-found")])]) :=
  ⟨((executor_branching_c4 (fun _ => FsResult.ok) "build" (fun _ => SendResult.success)
      "bk" "p" "k" [("redirect-location-1", "/y")] (by decide)).1 (by decide)).2.1,
   ((executor_branching_c4 (fun _ => FsResult.ioError "e") "build"
      (fun _ => SendResult.success) "bk" "p" "k" [("redirect-location-1", "/y")]
      (by decide)).2 (by decide)).2.1⟩

/-! ## Supporting lemmas: lists and slots -/

theorem perm_swap_ends {α : Type} (X T Y : List α) : ((X ++ T) ++ Y).Perm ((Y ++ T) ++ X) := by
  have h1 : ((X ++ T) ++ Y).Perm (Y ++ (X ++ T)) := List.perm_append_comm
  have h2 : (Y ++ (X ++ T)).Perm (Y ++ (T ++ X)) := List.Perm.append_left Y List.perm_append_comm
  have h3 : Y ++ (T ++ X) = (Y ++ T) ++ X := (List.append_assoc Y T X).symm
  exact h3 ▸ (h1.trans h2)

theorem countP_set_swap {α : Type} (p : α → Bool) :
    ∀ (l : List α) (i : Nat) (a b : α), l.get? i = some b →
      (l.set i a).countP p + (if p b then 1 else 0) =
        l.countP p + (if p a then 1 else 0) := by
  intro l
  induction l with
  | nil => intro i a b h; simp at h
  | cons x xs ih =>
    intro i a b h
    cases i with
    | zero =>
      simp only [List.get?] at h
      injection h with h
      subst h
      simp only [List.set, List.countP_cons]
      omega
    | succ i =>
      simp only [List.get?] at h
      have := ih i a b h
      simp only [List.set, List.countP_cons]
      omega

theorem flatMap_set_perm {α β : Type} (f : α → List β) :
    ∀ (l : List α) (i : Nat) (a b : α), l.get? i = some b →
      ((l.set i a).flatMap f ++ f b).Perm (l.flatMap f ++ f a) := by
  intro l
  induction l with
  | nil => intro i a b h; simp at h
  | cons x xs ih =>
    intro i a b h
    cases i with
    | zero =>
      simp only [List.get?] at h
      injection h with h
      subst h
      simp only [List.set, List.flatMap_cons]
      exact perm_swap_ends (f a) (xs.flatMap f) (f x)
    | succ i =>
      simp only [List.get?] at h
      have hp := ih i a b h
      simp only [List.set, List.flatMap_cons]
      rw [List.append_assoc, List.append_assoc]
      exact List.Perm.append_left _ hp

theorem mem_of_mem_set {α : Type} {a x : α} :
    ∀ {l : List α} {i : Nat}, a ∈ l.set i x → a ∈ l ∨ a = x := by
  intro l
  induction l with
  | nil => intro i h; simp at h
  | cons y ys ih =>
    intro i h
    cases i with
    | zero =>
      simp only [List.set, List.mem_cons] at h
      rcases h with h | h
      · exact Or.inr h
      · exact Or.inl (List.mem_cons_of_mem _ h)
    | succ i =>
      simp only [List.set, List.mem_cons] at h
      rcases h with h | h
      · exact Or.inl (h ▸ List.mem_cons_self _ _)
      · rcases ih h with h | h
        · exact Or.inl (List.mem_cons_of_mem _ h)
        · exact Or.inr h

theorem mem_set_of_ne {α : Type} {a c x : α} :
    ∀ {l : List α} {i : Nat}, l.get? i = some c → a ∈ l → a ≠ c → a ∈ l.set i x := by
  intro l
  induction l with
  | nil => intro i h; simp at h
  | cons y ys ih =>
    intro i hg hm hne
    cases i with
    | zero =>
      simp only [List.get?] at hg
      injection hg with hg
      subst hg
      rcases List.mem_cons.mp hm with h | h
      · exact absurd h hne
      · exact List.mem_cons_of_mem _ h
    | succ i =>
      simp only [List.get?] at hg
      rcases List.mem_cons.mp hm with h | h
      · exact h ▸ List.mem_cons_self _ _
      · exact List.mem_cons_of_mem _ (ih hg h hne)

theorem self_mem_set {α : Type} {x : α} :
    ∀ {l : List α} {i : Nat}, i < l.length → x ∈ l.set i x := by
  intro l
  induction l with
  | nil => intro i h; simp at h
  | cons y ys ih =>
    intro i h
    cases i with
    | zero => exact List.mem_cons_self _ _
    | succ i =>
      simp only [List.length_cons, Nat.succ_lt_succ_iff] at h
      exact List.mem_cons_of_mem _ (ih h)

theorem settleablesFrom_spec {τ : Type} :
    ∀ (l : List (WrapSlot τ)) (k j : Nat) (s : WrapSlot τ),
      (j, s) ∈ settleablesFrom k l →
      k ≤ j ∧ l.get? (j - k) = some s ∧ isSettleable s = true := by
  intro l
  induction l with
  | nil => intro k j s h; simp [settleablesFrom] at h
  | cons s₀ rest ih =>
    intro k j s h
    simp only [settleablesFrom, List.mem_append] at h
    rcases h with h | h
    · cases hset : isSettleable s₀ <;> rw [hset] at h
      · simp at h
      · simp at h
        rcases h with ⟨h1, h2⟩
        subst h1; subst h2
        exact ⟨Nat.le_refl _, by simp [List.get?], hset⟩
    · have hr := ih (k + 1) j s h
      refine ⟨by omega, ?_, hr.2.2⟩
      have h1 : j - k = (j - (k + 1)) + 1 := by omega
      rw [h1]
      simpa [List.get?] using hr.2.1

theorem settleables_spec {τ : Type} {tasks : List (WrapSlot τ)} {j : Nat} {s : WrapSlot τ}
    (h : (j, s) ∈ settleables tasks) : tasks.get? j = some s ∧ isSettleable s = true := by
  have hr := settleablesFrom_spec tasks 0 j s h
  simpa using hr.2

theorem settleablesFrom_ne_nil {τ : Type} :
    ∀ (l : List (WrapSlot τ)) (k : Nat) (s : WrapSlot τ), s ∈ l → isSettleable s = true →
      settleablesFrom k l ≠ [] := by
  intro l
  induction l with
  | nil => intro k s h; simp at h
  | cons s₀ rest ih =>
    intro k s hm hs
    simp only [settleablesFrom]
    rcases List.mem_cons.mp hm with h | h
    · subst h
      rw [hs]
      simp
    · intro hc
      have h2 := (List.append_eq_nil.mp hc).2
      exact ih (k + 1) s h hs h2

theorem raceWinner_eq_some {τ : Type} (sched : Nat → Nat) (t : Nat)
    {tasks : List (WrapSlot τ)} (h : settleables tasks ≠ []) :
    ∃ j s, raceWinner sched t tasks = some (j, s) := by
  unfold raceWinner
  have hlen : 0 < (settleables tasks).length := List.length_pos.mpr h
  have hm : sched t % (settleables tasks).length < (settleables tasks).length :=
    Nat.mod_lt _ hlen
  rcases hx : (settleables tasks).get? (sched t % (settleables tasks).length) with _ | w
  · rw [List.get?_eq_none] at hx
    omega
  · rcases w with ⟨j, s⟩
    exact ⟨j, s, rfl⟩

theorem raceWinner_mem {τ : Type} {sched : Nat → Nat} {t : Nat}
    {tasks : List (WrapSlot τ)} {j : Nat} {s : WrapSlot τ}
    (h : raceWinner sched t tasks = some (j, s)) : (j, s) ∈ settleables tasks := by
  unfold raceWinner at h
  exact List.get?_mem h

theorem settleablesOFrom_spec {τ : Type} :
    ∀ (l : List (Option (WrapSlot τ))) (k j : Nat) (s : WrapSlot τ),
      (j, s) ∈ settleablesOFrom k l →
      k ≤ j ∧ l.get? (j - k) = some (some s) ∧ isSettleable s = true := by
  intro l
  induction l with
  | nil => intro k j s h; simp [settleablesOFrom] at h
  | cons o rest ih =>
    intro k j s h
    cases o with
    | none =>
      simp only [settleablesOFrom] at h
      have hr := ih (k + 1) j s h
      refine ⟨by omega, ?_, hr.2.2⟩
      have h1 : j - k = (j - (k + 1)) + 1 := by omega
      rw [h1]
      simpa [List.get?] using hr.2.1
    | some s₀ =>
      simp only [settleablesOFrom, List.mem_append] at h
      rcases h with h | h
      · cases hset : isSettleable s₀ <;> rw [hset] at h
        · simp at h
        · simp at h
          rcases h with ⟨h1, h2⟩
          subst h1; subst h2
          exact ⟨Nat.le_refl _, by simp [List.get?], hset⟩
      · have hr := ih (k + 1) j s h
        refine ⟨by omega, ?_, hr.2.2⟩
        have h1 : j - k = (j - (k + 1)) + 1 := by omega
        rw [h1]
        simpa [List.get?] using hr.2.1

theorem settleablesOFrom_ne_nil {τ : Type} :
    ∀ (l : List (Option (WrapSlot τ))) (k : Nat) (s : WrapSlot τ),
      some s ∈ l → isSettleable s = true → settleablesOFrom k l ≠ [] := by
  intro l
  induction l with
  | nil => intro k s h; simp at h
  | cons o rest ih =>
    intro k s hm hs
    rcases List.mem_cons.mp hm with h | h
    · subst h
      simp only [settleablesOFrom]
      rw [hs]
      simp
    · cases o with
      | none =>
        simp only [settleablesOFrom]
        exact ih (k + 1) s h hs
      | some s₀ =>
        simp only [settleablesOFrom]
        intro hc
        have h2 := (List.append_eq_nil.mp hc).2
        exact ih (k + 1) s h hs h2

theorem raceWinnerO_eq_some {τ : Type} (sched : Nat → Nat) (t : Nat)
    {slots : List (Option (WrapSlot τ))} (h : settleablesOFrom 0 slots ≠ []) :
    ∃ j s, raceWinnerO sched t slots = some (j, s) := by
  unfold raceWinnerO
  have hlen : 0 < (settleablesOFrom 0 slots).length := List.length_pos.mpr h
  have hm : sched t % (settleablesOFrom 0 slots).length < (settleablesOFrom 0 slots).length :=
    Nat.mod_lt _ hlen
  rcases hx : (settleablesOFrom 0 slots).get? (sched t % (settleablesOFrom 0 slots).length)
    with _ | w
  · rw [List.get?_eq_none] at hx
    omega
  · rcases w with ⟨j, s⟩
    exact ⟨j, s, rfl⟩

theorem raceWinnerO_mem {τ : Type} {sched : Nat → Nat} {t : Nat}
    {slots : List (Option (WrapSlot τ))} {j : Nat} {s : WrapSlot τ}
    (h : raceWinnerO sched t slots = some (j, s)) : (j, s) ∈ settleablesOFrom 0 slots := by
  unfold raceWinnerO at h
  exact List.get?_mem h

theorem fillSlots_length {τ : Type} :
    ∀ (n : Nat) (src : List (PTask τ)), (fillSlots n src).length = n := by
  intro n
  induction n with
  | zero => intro src; rfl
  | succ n ih =>
    intro src
    cases src with
    | nil => simp [fillSlots, ih]
    | cons p rest => simp [fillSlots, ih]

theorem pendingVals_fillSlots_ok {τ : Type} :
    ∀ (n : Nat) (src : List τ),
      pendingVals (fillSlots n (src.map PTask.ok)) = src.take n := by
  intro n
  induction n with
  | zero => intro src; cases src <;> rfl
  | succ n ih =>
    intro src
    cases src with
    | nil =>
      show pendingVals (fillSlots (n + 1) []) = []
      have hfix : ∀ (m : Nat), pendingVals (fillSlots m ([] : List (PTask τ))) = [] := by
        intro m
        induction m with
        | zero => rfl
        | succ m ihm => simp [fillSlots, pendingVals, slotVals] at ihm ⊢; exact ihm
      exact hfix (n + 1)
    | cons v rest =>
      show pendingVals (WrapSlot.pending v :: fillSlots n (rest.map PTask.ok)) = v :: rest.take n
      simp only [pendingVals, List.flatMap_cons, slotVals]
      rw [show [v] ++ (fillSlots n (rest.map PTask.ok)).flatMap slotVals =
        v :: pendingVals (fillSlots n (rest.map PTask.ok)) from rfl]
      rw [ih rest]

theorem stuck_not_mem_fillSlots_ok {τ : Type} :
    ∀ (n : Nat) (src : List τ),
      WrapSlot.stuck ∉ fillSlots n (src.map PTask.ok) := by
  intro n
  induction n with
  | zero => intro src; simp [fillSlots]
  | succ n ih =>
    intro src
    cases src with
    | nil =>
      have hfix : ∀ (m : Nat), WrapSlot.stuck ∉ fillSlots m ([] : List (PTask τ)) := by
        intro m
        induction m with
        | zero => simp [fillSlots]
        | succ m ihm =>
          simp only [fillSlots, List.mem_cons]
          rintro (h | h)
          · cases h
          · exact ihm h
      exact hfix (n + 1)
    | cons v rest =>
      show WrapSlot.stuck ∉ WrapSlot.pending v :: fillSlots n (rest.map PTask.ok)
      simp only [List.mem_cons]
      rintro (h | h)
      · cases h
      · exact ih rest h

theorem done_mem_fillSlots {τ : Type} :
    ∀ (n : Nat) (src : List (PTask τ)),
      WrapSlot.done ∈ fillSlots n src → src.drop n = [] := by
  intro n
  induction n with
  | zero => intro src h; simp [fillSlots] at h
  | succ n ih =>
    intro src h
    cases src with
    | nil => rfl
    | cons p rest =>
      simp only [fillSlots, List.mem_cons] at h
      rcases h with h | h
      · cases p <;> simp [wrapOf] at h
      · exact ih rest h

theorem err_fillSlots {τ : Type} :
    ∀ (n : Nat) (src : List (PTask τ)), PTask.err ∈ src →
      WrapSlot.stuck ∈ fillSlots n src ∨ PTask.err ∈ src.drop n := by
  intro n
  induction n with
  | zero => intro src h; exact Or.inr h
  | succ n ih =>
    intro src h
    cases src with
    | nil => simp at h
    | cons p rest =>
      rcases List.mem_cons.mp h with h | h
      · subst h
        exact Or.inl (by simp [fillSlots, wrapOf])
      · rcases ih rest h with h2 | h2
        · exact Or.inl (by simp [fillSlots]; exact Or.inr h2)
        · exact Or.inr h2

theorem fillSlots_nil_mem {τ : Type} :
    ∀ (n : Nat) (s : WrapSlot τ), s ∈ fillSlots n [] → s = WrapSlot.done := by
  intro n
  induction n with
  | zero => intro s h; simp [fillSlots] at h
  | succ n ih =>
    intro s h
    simp only [fillSlots, List.mem_cons] at h
    rcases h with h | h
    · exact h
    · exact ih s h

theorem okVals_map_ok {τ : Type} (src : List τ) : okVals (src.map PTask.ok) = src := by
  induction src with
  | nil => rfl
  | cons v rest ih => simp [okVals, List.flatMap_cons] at ih ⊢; exact ih

theorem countP_le_len_fill {τ : Type} (n : Nat) (src : List (PTask τ)) (p : WrapSlot τ → Bool) :
    (fillSlots n src).countP p ≤ n := by
  have h := @List.countP_le_length _ p (fillSlots n src)
  rw [fillSlots_length] at h
  exact h

/-! ## Unfolding equations for the two scheduler loops -/

theorem phaseA_zero {τ : Type} (sched : Nat → Nat) (t : Nat) (tasks : List (WrapSlot τ))
    (remaining : List (PTask τ)) :
    phaseA sched 0 t tasks remaining = ⟨[], [], none, remaining, t⟩ := rfl

theorem phaseA_none {τ : Type} (sched : Nat → Nat) (fuel t : Nat)
    (tasks : List (WrapSlot τ)) (remaining : List (PTask τ))
    (hw : raceWinner sched t tasks = none) :
    phaseA sched (fuel + 1) t tasks remaining =
      ⟨[⟨tasks.map some, remaining⟩], [], none, remaining, t⟩ := by
  conv_lhs => unfold phaseA
  rw [hw]

theorem phaseA_done {τ : Type} (sched : Nat → Nat) (fuel t : Nat)
    (tasks : List (WrapSlot τ)) (remaining : List (PTask τ)) (j : Nat)
    (hw : raceWinner sched t tasks = some (j, WrapSlot.done)) :
    phaseA sched (fuel + 1) t tasks remaining =
      ⟨[⟨tasks.map some, remaining⟩], [], some ((tasks.map some).set j none),
        remaining, t + 1⟩ := by
  conv_lhs => unfold phaseA
  rw [hw]

theorem phaseA_stuck {τ : Type} (sched : Nat → Nat) (fuel t : Nat)
    (tasks : List (WrapSlot τ)) (remaining : List (PTask τ)) (j : Nat)
    (hw : raceWinner sched t tasks = some (j, WrapSlot.stuck)) :
    phaseA sched (fuel + 1) t tasks remaining =
      ⟨[⟨tasks.map some, remaining⟩], [], none, remaining, t⟩ := by
  conv_lhs => unfold phaseA
  rw [hw]

theorem phaseA_pending_nil {τ : Type} (sched : Nat → Nat) (fuel t : Nat)
    (tasks : List (WrapSlot τ)) (j : Nat) (v : τ)
    (hw : raceWinner sched t tasks = some (j, WrapSlot.pending v)) :
    phaseA sched (fuel + 1) t tasks [] =
      ⟨⟨tasks.map some, []⟩ :: (phaseA sched fuel (t + 1) (tasks.set j WrapSlot.done) []).trace,
        v :: (phaseA sched fuel (t + 1) (tasks.set j WrapSlot.done) []).outs,
        (phaseA sched fuel (t + 1) (tasks.set j WrapSlot.done) []).next,
        (phaseA sched fuel (t + 1) (tasks.set j WrapSlot.done) []).remEnd,
        (phaseA sched fuel (t + 1) (tasks.set j WrapSlot.done) []).tEnd⟩ := by
  conv_lhs => unfold phaseA
  rw [hw]

theorem phaseA_pending_cons {τ : Type} (sched : Nat → Nat) (fuel t : Nat)
    (tasks : List (WrapSlot τ)) (j : Nat) (v : τ) (p : PTask τ) (rest : List (PTask τ))
    (hw : raceWinner sched t tasks = some (j, WrapSlot.pending v)) :
    phaseA sched (fuel + 1) t tasks (p :: rest) =
      ⟨⟨tasks.map some, p :: rest⟩ ::
          (phaseA sched fuel (t + 1) (tasks.set j (wrapOf p)) rest).trace,
        v :: (phaseA sched fuel (t + 1) (tasks.set j (wrapOf p)) rest).outs,
        (phaseA sched fuel (t + 1) (tasks.set j (wrapOf p)) rest).next,
        (phaseA sched fuel (t + 1) (tasks.set j (wrapOf p)) rest).remEnd,
        (phaseA sched fuel (t + 1) (tasks.set j (wrapOf p)) rest).tEnd⟩ := by
  conv_lhs => unfold phaseA
  rw [hw]

theorem phaseB_zero {τ : Type} (sched : Nat → Nat) (t : Nat)
    (slots : List (Option (WrapSlot τ))) (rem : List (PTask τ)) :
    phaseB sched 0 t slots rem = ⟨[], [], false⟩ := rfl

theorem phaseB_finish {τ : Type} (sched : Nat → Nat) (fuel t : Nat)
    (slots : List (Option (WrapSlot τ))) (rem : List (PTask τ))
    (h : occupied slots = 0) :
    phaseB sched (fuel + 1) t slots rem = ⟨[⟨slots, rem⟩], [], true⟩ := by
  conv_lhs => unfold phaseB
  rw [if_pos h]

theorem phaseB_none {τ : Type} (sched : Nat → Nat) (fuel t : Nat)
    (slots : List (Option (WrapSlot τ))) (rem : List (PTask τ))
    (h : ¬occupied slots = 0) (hw : raceWinnerO sched t slots = none) :
    phaseB sched (fuel + 1) t slots rem = ⟨[⟨slots, rem⟩], [], false⟩ := by
  conv_lhs => unfold phaseB
  rw [if_neg h, hw]

theorem phaseB_step {τ : Type} (sched : Nat → Nat) (fuel t : Nat)
    (slots : List (Option (WrapSlot τ))) (rem : List (PTask τ)) (j : Nat) (s : WrapSlot τ)
    (h : ¬occupied slots = 0) (hw : raceWinnerO sched t slots = some (j, s)) :
    phaseB sched (fuel + 1) t slots rem =
      ⟨⟨slots, rem⟩ :: (phaseB sched fuel (t + 1) (slots.set j none) rem).trace,
        slotVals s ++ (phaseB sched fuel (t + 1) (slots.set j none) rem).outs,
        (phaseB sched fuel (t + 1) (slots.set j none) rem).finished⟩ := by
  conv_lhs => unfold phaseB
  rw [if_neg h, hw]

/-! ## Invariants of the scheduler loops -/

theorem get?_some_lt {α : Type} {l : List α} {n : Nat} {a : α}
    (h : l.get? n = some a) : n < l.length := by
  by_contra hc
  rw [List.get?_eq_none.mpr (Nat.le_of_not_lt hc)] at h
  cases h

theorem pendingValsO_map_some {τ : Type} (tasks : List (WrapSlot τ)) :
    pendingValsO (tasks.map some) = pendingVals tasks := by
  induction tasks with
  | nil => rfl
  | cons s rest ih =>
    simp only [pendingValsO, pendingVals, List.map_cons, List.flatMap_cons] at ih ⊢
    rw [ih]
    rfl

theorem occupied_zero_vals {τ : Type} {slots : List (Option (WrapSlot τ))}
    (h : occupied slots = 0) : pendingValsO slots = [] := by
  rw [pendingValsO, List.flatMap_eq_nil_iff]
  intro o ho
  have hn := List.countP_eq_zero.mp h o ho
  cases o with
  | none => rfl
  | some s => simp [Option.isSome] at hn

theorem exists_some_of_occupied {τ : Type} {slots : List (Option (WrapSlot τ))}
    (h : occupied slots ≠ 0) : ∃ s, some s ∈ slots := by
  by_contra hc
  push_neg at hc
  apply h
  rw [occupied, List.countP_eq_zero]
  intro o ho
  cases o with
  | none => simp
  | some s => exact absurd ho (hc s)

theorem phaseA_shape {τ : Type} (sched : Nat → Nat) :
    ∀ (fuel t : Nat) (tasks : List (WrapSlot τ)) (remaining : List (PTask τ)),
      (∀ st ∈ (phaseA sched fuel t tasks remaining).trace, st.slots.length = tasks.length) ∧
      (∀ slots, (phaseA sched fuel t tasks remaining).next = some slots →
        slots.length = tasks.length) := by
  intro fuel
  induction fuel with
  | zero =>
    intro t tasks remaining
    rw [phaseA_zero]
    exact ⟨fun st h => absurd h (by simp), fun slots h => absurd h (by simp)⟩
  | succ fuel ih =>
    intro t tasks remaining
    rcases hw : raceWinner sched t tasks with _ | ⟨j, s⟩
    · rw [phaseA_none sched fuel t tasks remaining hw]
      refine ⟨fun st h => ?_, fun slots h => absurd h (by simp)⟩
      simp only [List.mem_singleton] at h
      subst h
      simp
    · cases s with
      | done =>
        rw [phaseA_done sched fuel t tasks remaining j hw]
        refine ⟨fun st h => ?_, fun slots h => ?_⟩
        · simp only [List.mem_singleton] at h
          subst h
          simp
        · simp only [Option.some.injEq] at h
          subst h
          simp [List.length_set]
      | stuck =>
        rw [phaseA_stuck sched fuel t tasks remaining j hw]
        refine ⟨fun st h => ?_, fun slots h => absurd h (by simp)⟩
        simp only [List.mem_singleton] at h
        subst h
        simp
      | pending v =>
        cases remaining with
        | nil =>
          rw [phaseA_pending_nil sched fuel t tasks j v hw]
          have ihs := ih (t + 1) (tasks.set j WrapSlot.done) []
          refine ⟨fun st h => ?_, fun slots h => ?_⟩
          · rcases List.mem_cons.mp h with h | h
            · subst h; simp
            · have hl := ihs.1 st h
              rwa [List.length_set] at hl
          · have hl := ihs.2 slots h
            rwa [List.length_set] at hl
        | cons p rest =>
          rw [phaseA_pending_cons sched fuel t tasks j v p rest hw]
          have ihs := ih (t + 1) (tasks.set j (wrapOf p)) rest
          refine ⟨fun st h => ?_, fun slots h => ?_⟩
          · rcases List.mem_cons.mp h with h | h
            · subst h; simp
            · have hl := ihs.1 st h
              rwa [List.length_set] at hl
          · have hl := ihs.2 slots h
            rwa [List.length_set] at hl

theorem phaseB_shape {τ : Type} (sched : Nat → Nat) :
    ∀ (fuel t : Nat) (slots : List (Option (WrapSlot τ))) (rem : List (PTask τ)),
      ∀ st ∈ (phaseB sched fuel t slots rem).trace, st.slots.length = slots.length := by
  intro fuel
  induction fuel with
  | zero =>
    intro t slots rem st h
    rw [phaseB_zero] at h
    simp at h
  | succ fuel ih =>
    intro t slots rem st h
    by_cases hocc : occupied slots = 0
    · rw [phaseB_finish sched fuel t slots rem hocc] at h
      simp only [List.mem_singleton] at h
      subst h
      rfl
    · rcases hw : raceWinnerO sched t slots with _ | ⟨j, s⟩
      · rw [phaseB_none sched fuel t slots rem hocc hw] at h
        simp only [List.mem_singleton] at h
        subst h
        rfl
      · rw [phaseB_step sched fuel t slots rem j s hocc hw] at h
        rcases List.mem_cons.mp h with h | h
        · subst h; rfl
        · have hl := ih (t + 1) (slots.set j none) rem st h
          rwa [List.length_set] at hl

theorem phaseA_pending_free {τ : Type} (sched : Nat → Nat) :
    ∀ (fuel t : Nat) (tasks : List (WrapSlot τ)) (remaining : List (PTask τ)),
      (∀ v : τ, WrapSlot.pending v ∉ tasks) →
      (phaseA sched fuel t tasks remaining).outs = [] ∧
      (∀ st ∈ (phaseA sched fuel t tasks remaining).trace,
        ∀ v : τ, some (WrapSlot.pending v) ∉ st.slots) ∧
      (∀ slots, (phaseA sched fuel t tasks remaining).next = some slots →
        ∀ v : τ, some (WrapSlot.pending v) ∉ slots) := by
  intro fuel
  induction fuel with
  | zero =>
    intro t tasks remaining hp
    rw [phaseA_zero]
    exact ⟨rfl, fun st h => absurd h (by simp), fun slots h => absurd h (by simp)⟩
  | succ fuel ih =>
    intro t tasks remaining hp
    have hmapfree : ∀ v : τ, some (WrapSlot.pending v) ∉ tasks.map some := by
      intro v hc
      rcases List.mem_map.mp hc with ⟨s, hs, he⟩
      injection he with he
      exact hp v (he ▸ hs)
    rcases hw : raceWinner sched t tasks with _ | ⟨j, s⟩
    · rw [phaseA_none sched fuel t tasks remaining hw]
      refine ⟨rfl, fun st h => ?_, fun slots h => absurd h (by simp)⟩
      simp only [List.mem_singleton] at h
      subst h
      exact hmapfree
    · have hspec := settleables_spec (raceWinner_mem hw)
      cases s with
      | done =>
        rw [phaseA_done sched fuel t tasks remaining j hw]
        refine ⟨rfl, fun st h => ?_, fun slots h => ?_⟩
        · simp only [List.mem_singleton] at h
          subst h
          exact hmapfree
        · simp only [Option.some.injEq] at h
          subst h
          intro v hc
          rcases mem_of_mem_set hc with hc | hc
          · exact hmapfree v hc
          · cases hc
      | stuck =>
        rw [phaseA_stuck sched fuel t tasks remaining j hw]
        refine ⟨rfl, fun st h => ?_, fun slots h => absurd h (by simp)⟩
        simp only [List.mem_singleton] at h
        subst h
        exact hmapfree
      | pending v =>
        exact absurd (List.get?_mem hspec.1) (hp v)

theorem phaseB_pending_free {τ : Type} (sched : Nat → Nat) :
    ∀ (fuel t : Nat) (slots : List (Option (WrapSlot τ))) (rem : List (PTask τ)),
      (∀ v : τ, some (WrapSlot.pending v) ∉ slots) →
      (phaseB sched fuel t slots rem).outs = [] ∧
      (∀ st ∈ (phaseB sched fuel t slots rem).trace,
        ∀ v : τ, some (WrapSlot.pending v) ∉ st.slots) := by
  intro fuel
  induction fuel with
  | zero =>
    intro t slots rem hp
    rw [phaseB_zero]
    exact ⟨rfl, fun st h => absurd h (by simp)⟩
  | succ fuel ih =>
    intro t slots rem hp
    by_cases hocc : occupied slots = 0
    · rw [phaseB_finish sched fuel t slots rem hocc]
      refine ⟨rfl, fun st h => ?_⟩
      simp only [List.mem_singleton] at h
      subst h
      exact hp
    · rcases hw : raceWinnerO sched t slots with _ | ⟨j, s⟩
      · rw [phaseB_none sched fuel t slots rem hocc hw]
        refine ⟨rfl, fun st h => ?_⟩
        simp only [List.mem_singleton] at h
        subst h
        exact hp
      · rw [phaseB_step sched fuel t slots rem j s hocc hw]
        have hspec := settleablesOFrom_spec slots 0 j s (raceWinnerO_mem hw)
        have hget : slots.get? j = some (some s) := by simpa using hspec.2.1
        have hpfree : ∀ v : τ, some (WrapSlot.pending v) ∉ slots.set j none := by
          intro v hc
          rcases mem_of_mem_set hc with hc | hc
          · exact hp v hc
          · cases hc
        have ihs := ih (t + 1) (slots.set j none) rem hpfree
        have hsv : slotVals s = [] := by
          cases s with
          | pending v => exact absurd (List.get?_mem hget) (hp v)
          | done => rfl
          | stuck => rfl
        refine ⟨?_, fun st h => ?_⟩
        · show slotVals s ++ (phaseB sched fuel (t + 1) (slots.set j none) rem).outs = []
          rw [hsv, ihs.1]
          rfl
        · rcases List.mem_cons.mp h with h | h
          · subst h
            exact hp
          · exact ihs.2 st h

theorem phaseB_stuck_run {τ : Type} (sched : Nat → Nat) :
    ∀ (fuel t : Nat) (slots : List (Option (WrapSlot τ))) (rem : List (PTask τ)),
      some (WrapSlot.stuck : WrapSlot τ) ∈ slots →
      (phaseB sched fuel t slots rem).finished = false := by
  intro fuel
  induction fuel with
  | zero =>
    intro t slots rem _
    rw [phaseB_zero]
  | succ fuel ih =>
    intro t slots rem hstuck
    have hocc : ¬occupied slots = 0 := by
      intro h0
      have := List.countP_eq_zero.mp h0 _ hstuck
      simp [Option.isSome] at this
    rcases hw : raceWinnerO sched t slots with _ | ⟨j, s⟩
    · rw [phaseB_none sched fuel t slots rem hocc hw]
    · rw [phaseB_step sched fuel t slots rem j s hocc hw]
      have hspec := settleablesOFrom_spec slots 0 j s (raceWinnerO_mem hw)
      have hget : slots.get? j = some (some s) := by simpa using hspec.2.1
      have hne : (some WrapSlot.stuck : Option (WrapSlot τ)) ≠ some s := by
        intro hc
        injection hc with hc
        rw [← hc] at hspec
        simp [isSettleable] at hspec
      show (phaseB sched fuel (t + 1) (slots.set j none) rem).finished = false
      exact ih (t + 1) (slots.set j none) rem (mem_set_of_ne hget hstuck hne)

theorem phaseB_ok {τ : Type} (sched : Nat → Nat) :
    ∀ (fuel t : Nat) (slots : List (Option (WrapSlot τ))) (rem : List (PTask τ)),
      some (WrapSlot.stuck : WrapSlot τ) ∉ slots →
      occupied slots + 1 ≤ fuel →
      (phaseB sched fuel t slots rem).finished = true ∧
      ((phaseB sched fuel t slots rem).outs).Perm (pendingValsO slots) := by
  intro fuel
  induction fuel with
  | zero =>
    intro t slots rem _ hfuel
    omega
  | succ fuel ih =>
    intro t slots rem hstuck hfuel
    by_cases hocc : occupied slots = 0
    · rw [phaseB_finish sched fuel t slots rem hocc]
      rw [occupied_zero_vals hocc]
      exact ⟨rfl, List.Perm.refl _⟩
    · rcases exists_some_of_occupied hocc with ⟨s₀, hs₀⟩
      have hset0 : isSettleable s₀ = true := by
        cases s₀ with
        | pending v => rfl
        | done => rfl
        | stuck => exact absurd hs₀ hstuck
      have hne : settleablesOFrom 0 slots ≠ [] :=
        settleablesOFrom_ne_nil slots 0 s₀ hs₀ hset0
      rcases raceWinnerO_eq_some sched t hne with ⟨j, s, hw⟩
      rw [phaseB_step sched fuel t slots rem j s hocc hw]
      have hspec := settleablesOFrom_spec slots 0 j s (raceWinnerO_mem hw)
      have hget : slots.get? j = some (some s) := by simpa using hspec.2.1
      have hstuck' : some (WrapSlot.stuck : WrapSlot τ) ∉ slots.set j none := by
        intro hc
        rcases mem_of_mem_set hc with hc | hc
        · exact hstuck hc
        · cases hc
      have hcount := countP_set_swap (Option.isSome) slots j none (some s) hget
      have hocc' : occupied (slots.set j none) + 1 ≤ fuel := by
        simp [Option.isSome] at hcount
        unfold occupied at hfuel hocc ⊢
        omega
      have ihs := ih (t + 1) (slots.set j none) rem hstuck' hocc'
      have hsetperm := flatMap_set_perm optSlotVals slots j none (some s) hget
      simp only [optSlotVals] at hsetperm
      refine ⟨ihs.1, ?_⟩
      show (slotVals s ++ (phaseB sched fuel (t + 1) (slots.set j none) rem).outs).Perm
        (pendingValsO slots)
      have h1 : (slotVals s ++ (phaseB sched fuel (t + 1) (slots.set j none) rem).outs).Perm
          (slotVals s ++ pendingValsO (slots.set j none)) :=
        List.Perm.append_left _ ihs.2
      have h2 : (slotVals s ++ pendingValsO (slots.set j none)).Perm
          (pendingValsO (slots.set j none) ++ slotVals s) := List.perm_append_comm
      have h3 : (pendingValsO (slots.set j none) ++ slotVals s).Perm (pendingValsO slots) := by
        have := hsetperm
        rw [List.append_nil] at this
        exact this
      exact (h1.trans h2).trans h3

theorem phaseA_stuck_run {τ : Type} (sched : Nat → Nat) :
    ∀ (fuel t : Nat) (tasks : List (WrapSlot τ)) (remaining : List (PTask τ)),
      (WrapSlot.done ∈ tasks → remaining = []) →
      (WrapSlot.stuck ∈ tasks ∨ PTask.err ∈ remaining) →
      (phaseA sched fuel t tasks remaining).next = none ∨
      ∃ slots, (phaseA sched fuel t tasks remaining).next = some slots ∧
        some (WrapSlot.stuck : WrapSlot τ) ∈ slots := by
  intro fuel
  induction fuel with
  | zero =>
    intro t tasks remaining _ _
    rw [phaseA_zero]
    exact Or.inl rfl
  | succ fuel ih =>
    intro t tasks remaining hdone herr
    rcases hw : raceWinner sched t tasks with _ | ⟨j, s⟩
    · rw [phaseA_none sched fuel t tasks remaining hw]
      exact Or.inl rfl
    · have hspec := settleables_spec (raceWinner_mem hw)
      have hget := hspec.1
      cases s with
      | stuck =>
        rw [phaseA_stuck sched fuel t tasks remaining j hw]
        exact Or.inl rfl
      | done =>
        rw [phaseA_done sched fuel t tasks remaining j hw]
        refine Or.inr ⟨(tasks.map some).set j none, rfl, ?_⟩
        have hrem0 : remaining = [] := hdone (List.get?_mem hget)
        have hstuckmem : WrapSlot.stuck ∈ tasks := by
          rcases herr with h | h
          · exact h
          · rw [hrem0] at h
            cases h
        have hgetmap : (tasks.map some).get? j = some (some WrapSlot.done) := by
          rw [List.get?_map, hget]
          rfl
        refine mem_set_of_ne hgetmap (List.mem_map_of_mem some hstuckmem) ?_
        intro hc
        injection hc with hc
        cases hc
      | pending v =>
        cases remaining with
        | nil =>
          rw [phaseA_pending_nil sched fuel t tasks j v hw]
          have hstuckmem : WrapSlot.stuck ∈ tasks := by
            rcases herr with h | h
            · exact h
            · cases h
          have herr' : WrapSlot.stuck ∈ tasks.set j WrapSlot.done ∨
              PTask.err ∈ ([] : List (PTask τ)) := by
            refine Or.inl (mem_set_of_ne hget hstuckmem ?_)
            intro hc
            cases hc
          exact ih (t + 1) (tasks.set j WrapSlot.done) [] (fun _ => rfl) herr'
        | cons p rest =>
          rw [phaseA_pending_cons sched fuel t tasks j v p rest hw]
          have hdone' : WrapSlot.done ∈ tasks.set j (wrapOf p) → rest = [] := by
            intro hd
            rcases mem_of_mem_set hd with hd | hd
            · exact absurd (hdone hd) (by simp)
            · cases p <;> simp [wrapOf] at hd
          have herr' : WrapSlot.stuck ∈ tasks.set j (wrapOf p) ∨ PTask.err ∈ rest := by
            rcases herr with h | h
            · refine Or.inl (mem_set_of_ne hget h ?_)
              intro hc
              cases hc
            · rcases List.mem_cons.mp h with h | h
              · subst h
                exact Or.inl (self_mem_set (get?_some_lt hget))
              · exact Or.inr h
          exact ih (t + 1) (tasks.set j (wrapOf p)) rest hdone' herr'

theorem phaseA_ok {τ : Type} (sched : Nat → Nat) :
    ∀ (fuel t : Nat) (tasks : List (WrapSlot τ)) (remaining : List (PTask τ)),
      (WrapSlot.done ∈ tasks → remaining = []) →
      (WrapSlot.stuck ∉ tasks) →
      (PTask.err ∉ remaining) →
      tasks ≠ [] →
      remaining.length + (pendingVals tasks).length + 1 ≤ fuel →
      ∃ slots, (phaseA sched fuel t tasks remaining).next = some slots ∧
        (phaseA sched fuel t tasks remaining).remEnd = [] ∧
        some (WrapSlot.stuck : WrapSlot τ) ∉ slots ∧
        ((phaseA sched fuel t tasks remaining).outs ++ pendingValsO slots).Perm
          (pendingVals tasks ++ okVals remaining) := by
  intro fuel
  induction fuel with
  | zero =>
    intro t tasks remaining _ _ _ _ hfuel
    omega
  | succ fuel ih =>
    intro t tasks remaining hdone hstuck herr hne hfuel
    rcases List.exists_mem_of_ne_nil tasks hne with ⟨s₀, hs₀⟩
    have hset0 : isSettleable s₀ = true := by
      cases s₀ with
      | pending v => rfl
      | done => rfl
      | stuck => exact absurd hs₀ hstuck
    rcases raceWinner_eq_some sched t (settleablesFrom_ne_nil tasks 0 s₀ hs₀ hset0)
      with ⟨j, s, hw⟩
    have hspec := settleables_spec (raceWinner_mem hw)
    have hget := hspec.1
    cases s with
    | stuck => exact absurd (List.get?_mem hget) hstuck
    | done =>
      rw [phaseA_done sched fuel t tasks remaining j hw]
      have hrem0 : remaining = [] := hdone (List.get?_mem hget)
      subst hrem0
      refine ⟨(tasks.map some).set j none, rfl, rfl, ?_, ?_⟩
      · intro hc
        rcases mem_of_mem_set hc with hc | hc
        · rcases List.mem_map.mp hc with ⟨s, hs, he⟩
          injection he with he
          exact hstuck (he ▸ hs)
        · cases hc
      · have hgetmap : (tasks.map some).get? j = some (some WrapSlot.done) := by
          rw [List.get?_map, hget]
          rfl
        have hsp := flatMap_set_perm optSlotVals (tasks.map some) j none
          (some WrapSlot.done) hgetmap
        simp only [optSlotVals, slotVals, List.append_nil] at hsp
        have hsp2 : (pendingValsO ((tasks.map some).set j none)).Perm (pendingVals tasks) := by
          rw [← pendingValsO_map_some tasks]
          exact hsp
        show (([] : List τ) ++ pendingValsO ((tasks.map some).set j none)).Perm
          (pendingVals tasks ++ okVals ([] : List (PTask τ)))
        rw [List.nil_append]
        have hok : okVals ([] : List (PTask τ)) = [] := rfl
        rw [hok, List.append_nil]
        exact hsp2
    | pending v =>
      have hjlt : j < tasks.length := get?_some_lt hget
      cases remaining with
      | nil =>
        rw [phaseA_pending_nil sched fuel t tasks j v hw]
        have hsp := flatMap_set_perm slotVals tasks j WrapSlot.done
          (WrapSlot.pending v) hget
        simp only [slotVals, List.append_nil] at hsp
        have hlen : (pendingVals (tasks.set j WrapSlot.done)).length + 1 =
            (pendingVals tasks).length := by
          have hl := hsp.length_eq
          rw [List.length_append] at hl
          exact hl
        have hne' : tasks.set j WrapSlot.done ≠ [] := by
          intro hc
          have := congrArg List.length hc
          rw [List.length_set] at this
          simp at this
          subst this
          simp at hjlt
        have hstuck' : WrapSlot.stuck ∉ tasks.set j WrapSlot.done := by
          intro hc
          rcases mem_of_mem_set hc with hc | hc
          · exact hstuck hc
          · cases hc
        have hfuel' : ([] : List (PTask τ)).length +
            (pendingVals (tasks.set j WrapSlot.done)).length + 1 ≤ fuel := by
          simp only [List.length_nil] at hfuel ⊢
          omega
        rcases ih (t + 1) (tasks.set j WrapSlot.done) [] (fun _ => rfl) hstuck'
          (by simp) hne' hfuel'
          with ⟨slots, hnext, hrem, hsf, hperm⟩
        refine ⟨slots, hnext, hrem, hsf, ?_⟩
        show ((v :: (phaseA sched fuel (t + 1) (tasks.set j WrapSlot.done) []).outs) ++
          pendingValsO slots).Perm (pendingVals tasks ++ okVals [])
        have hok : okVals ([] : List (PTask τ)) = [] := rfl
        rw [hok, List.append_nil]
        have h1 : ((v :: (phaseA sched fuel (t + 1) (tasks.set j WrapSlot.done) []).outs) ++
            pendingValsO slots) =
            v :: ((phaseA sched fuel (t + 1) (tasks.set j WrapSlot.done) []).outs ++
              pendingValsO slots) := rfl
        rw [h1]
        have h2 := List.Perm.cons v hperm
        have h3 : (v :: (pendingVals (tasks.set j WrapSlot.done) ++
            okVals ([] : List (PTask τ)))).Perm (pendingVals tasks) := by
          rw [hok, List.append_nil]
          have h4 : (v :: pendingVals (tasks.set j WrapSlot.done)).Perm
              (pendingVals (tasks.set j WrapSlot.done) ++ [v]) :=
            (List.perm_append_singleton v _).symm
          exact h4.trans hsp
        exact h2.trans h3
      | cons p rest =>
        rcases hp : p with w | _
        · rw [phaseA_pending_cons sched fuel t tasks j v (PTask.ok w) rest hw]
          have hsp := flatMap_set_perm slotVals tasks j (wrapOf (PTask.ok w))
            (WrapSlot.pending v) hget
          simp only [wrapOf, slotVals] at hsp
          have hlen : (pendingVals (tasks.set j (WrapSlot.pending w))).length + 1 =
              (pendingVals tasks).length + 1 := by
            have hl := hsp.length_eq
            rw [List.length_append, List.length_append] at hl
            exact hl
          have hdone' : WrapSlot.done ∈ tasks.set j (WrapSlot.pending w) → rest = [] := by
            intro hd
            rcases mem_of_mem_set hd with hd | hd
            · exact absurd (hdone hd) (by simp)
            · cases hd
          have hstuck' : WrapSlot.stuck ∉ tasks.set j (WrapSlot.pending w) := by
            intro hc
            rcases mem_of_mem_set hc with hc | hc
            · exact hstuck hc
            · cases hc
          have herr' : PTask.err ∉ rest := by
            intro hc
            exact herr (List.mem_cons_of_mem _ hc)
          have hne' : tasks.set j (WrapSlot.pending w) ≠ [] := by
            intro hc
            have := congrArg List.length hc
            rw [List.length_set] at this
            simp at this
            subst this
            simp at hjlt
          have hfuel' : rest.length + (pendingVals (tasks.set j (WrapSlot.pending w))).length
              + 1 ≤ fuel := by
            simp only [List.length_cons] at hfuel
            omega
          rcases ih (t + 1) (tasks.set j (WrapSlot.pending w)) rest hdone' hstuck' herr'
            hne' hfuel' with ⟨slots, hnext, hrem, hsf, hperm⟩
          refine ⟨slots, hnext, hrem, hsf, ?_⟩
          show ((v :: (phaseA sched fuel (t + 1)
              (tasks.set j (WrapSlot.pending w)) rest).outs) ++ pendingValsO slots).Perm
            (pendingVals tasks ++ okVals (PTask.ok w :: rest))
          have hokcons : okVals (PTask.ok w :: rest) = w :: okVals rest := rfl
          rw [hokcons]
          have h1 : ((v :: (phaseA sched fuel (t + 1)
              (tasks.set j (WrapSlot.pending w)) rest).outs) ++ pendingValsO slots) =
              v :: ((phaseA sched fuel (t + 1)
                (tasks.set j (WrapSlot.pending w)) rest).outs ++ pendingValsO slots) := rfl
          rw [h1]
          have h2 := List.Perm.cons v hperm
          have h3 : (v :: (pendingVals (tasks.set j (WrapSlot.pending w)) ++
              okVals rest)).Perm (pendingVals tasks ++ (w :: okVals rest)) := by
            have h4 : (v :: (pendingVals (tasks.set j (WrapSlot.pending w)) ++ okVals rest)) =
                (v :: pendingVals (tasks.set j (WrapSlot.pending w))) ++ okVals rest := rfl
            rw [h4]
            have h5 : (v :: pendingVals (tasks.set j (WrapSlot.pending w))).Perm
                (pendingVals (tasks.set j (WrapSlot.pending w)) ++ [v]) :=
              (List.perm_append_singleton v _).symm
            have h6 : ((v :: pendingVals (tasks.set j (WrapSlot.pending w))) ++
                okVals rest).Perm ((pendingVals tasks ++ [w]) ++ okVals rest) :=
              List.Perm.append (h5.trans hsp) (List.Perm.refl _)
            have h7 : (pendingVals tasks ++ [w]) ++ okVals rest =
                pendingVals tasks ++ (w :: okVals rest) := by
              rw [List.append_assoc]
              rfl
            rw [h7] at h6
            exact h6
          exact h2.trans h3
        · exact absurd (List.mem_cons_self _ _) (hp ▸ herr)

theorem inflight_zero_of_pending_free {τ : Type} {st : SchedState τ}
    (h : ∀ v : τ, some (WrapSlot.pending v) ∉ st.slots) : inflightOf st = 0 := by
  rw [inflightOf, List.countP_eq_zero]
  intro o ho
  cases o with
  | none => simp
  | some s =>
    cases s with
    | pending v => exact absurd ho (h v)
    | done => simp
    | stuck => simp

theorem errorTally_aux :
    ∀ (l : List S3Operation) (n : Nat),
      l.foldl (fun acc o => if o.error.isSome then acc + 1 else acc) n =
        n + l.countP (fun o => o.error.isSome) := by
  intro l
  induction l with
  | nil => intro n; simp
  | cons o rest ih =>
    intro n
    simp only [List.foldl_cons, List.countP_cons]
    rcases he : o.error.isSome with _ | _
    · rw [if_neg (by simp [he]), ih]
      simp [he]
    · rw [if_pos (by simp [he]), ih]
      simp [he]
      omega

theorem errorTally_eq_countP (l : List S3Operation) :
    errorTally l = l.countP (fun o => o.error.isSome) := by
  rw [errorTally, errorTally_aux]
  simp

theorem parallelRun_next_none {τ : Type} (sched : Nat → Nat) (fuel max : Nat)
    (source : List (PTask τ))
    (h : (phaseA sched fuel 0 (fillSlots max source) (source.drop max)).next = none) :
    parallelRun sched fuel max source =
      ⟨(phaseA sched fuel 0 (fillSlots max source) (source.drop max)).trace,
        (phaseA sched fuel 0 (fillSlots max source) (source.drop max)).outs, false⟩ := by
  unfold parallelRun
  simp only [h]

theorem parallelRun_next_some {τ : Type} (sched : Nat → Nat) (fuel max : Nat)
    (source : List (PTask τ)) (slots : List (Option (WrapSlot τ)))
    (h : (phaseA sched fuel 0 (fillSlots max source) (source.drop max)).next = some slots) :
    parallelRun sched fuel max source =
      ⟨(phaseA sched fuel 0 (fillSlots max source) (source.drop max)).trace ++
          (phaseB sched fuel
            (phaseA sched fuel 0 (fillSlots max source) (source.drop max)).tEnd slots
            (phaseA sched fuel 0 (fillSlots max source) (source.drop max)).remEnd).trace,
        (phaseA sched fuel 0 (fillSlots max source) (source.drop max)).outs ++
          (phaseB sched fuel
            (phaseA sched fuel 0 (fillSlots max source) (source.drop max)).tEnd slots
            (phaseA sched fuel 0 (fillSlots max source) (source.drop max)).remEnd).outs,
        (phaseB sched fuel
          (phaseA sched fuel 0 (fillSlots max source) (source.drop max)).tEnd slots
          (phaseA sched fuel 0 (fillSlots max source) (source.drop max)).remEnd).finished⟩ := by
  unfold parallelRun
  simp only [h]

theorem parallelRun_trace_len {τ : Type} (sched : Nat → Nat) (fuel max : Nat)
    (source : List (PTask τ)) :
    ∀ st ∈ (parallelRun sched fuel max source).trace, st.slots.length = max := by
  intro st hst
  have hfl : (fillSlots max source).length = max := fillSlots_length max source
  rcases hnext : (phaseA sched fuel 0 (fillSlots max source) (source.drop max)).next
    with _ | slots
  · rw [parallelRun_next_none sched fuel max source hnext] at hst
    have := (phaseA_shape sched fuel 0 (fillSlots max source) (source.drop max)).1 st hst
    rw [hfl] at this
    exact this
  · rw [parallelRun_next_some sched fuel max source slots hnext] at hst
    rcases List.mem_append.mp hst with h | h
    · have := (phaseA_shape sched fuel 0 (fillSlots max source) (source.drop max)).1 st h
      rw [hfl] at this
      exact this
    · have hb := phaseB_shape sched fuel
        (phaseA sched fuel 0 (fillSlots max source) (source.drop max)).tEnd slots
        (phaseA sched fuel 0 (fillSlots max source) (source.drop max)).remEnd st h
      have hs := (phaseA_shape sched fuel 0 (fillSlots max source) (source.drop max)).2
        slots hnext
      rw [hfl] at hs
      rw [hb, hs]

theorem parallelRun_ok {τ : Type} (sched : Nat → Nat) (fuel max : Nat) (source : List τ)
    (hmax : 1 ≤ max) (hfuel : source.length + max + 2 ≤ fuel) :
    (parallelRun sched fuel max (source.map PTask.ok)).finished = true ∧
    ((parallelRun sched fuel max (source.map PTask.ok)).outs).Perm source := by
  have hstuck0 : WrapSlot.stuck ∉ fillSlots max (source.map PTask.ok) :=
    stuck_not_mem_fillSlots_ok max source
  have hdone0 : WrapSlot.done ∈ fillSlots max (source.map PTask.ok) →
      (source.map PTask.ok).drop max = [] :=
    done_mem_fillSlots max (source.map PTask.ok)
  have herr0 : PTask.err ∉ (source.map PTask.ok).drop max := by
    intro hc
    rcases List.mem_map.mp (List.mem_of_mem_drop hc) with ⟨a, _, he⟩
    cases he
  have hne0 : fillSlots max (source.map PTask.ok) ≠ [] := by
    intro hc
    have := congrArg List.length hc
    rw [fillSlots_length] at this
    simp at this
    omega
  have hfuelA : ((source.map PTask.ok).drop max).length +
      (pendingVals (fillSlots max (source.map PTask.ok))).length + 1 ≤ fuel := by
    rw [List.length_drop, List.length_map, pendingVals_fillSlots_ok, List.length_take]
    have : min max source.length ≤ source.length := Nat.min_le_right _ _
    omega
  rcases phaseA_ok sched fuel 0 (fillSlots max (source.map PTask.ok))
    ((source.map PTask.ok).drop max) hdone0 hstuck0 herr0 hne0 hfuelA
    with ⟨slots, hnext, hrem, hsf, hperm⟩
  have hslen : slots.length = max := by
    have := (phaseA_shape sched fuel 0 (fillSlots max (source.map PTask.ok))
      ((source.map PTask.ok).drop max)).2 slots hnext
    rw [fillSlots_length] at this
    exact this
  have hoccB : occupied slots + 1 ≤ fuel := by
    have h1 : occupied slots ≤ slots.length := List.countP_le_length _
    rw [hslen] at h1
    omega
  have hb := phaseB_ok sched fuel
    (phaseA sched fuel 0 (fillSlots max (source.map PTask.ok))
      ((source.map PTask.ok).drop max)).tEnd slots
    (phaseA sched fuel 0 (fillSlots max (source.map PTask.ok))
      ((source.map PTask.ok).drop max)).remEnd hsf hoccB
  rw [parallelRun_next_some sched fuel max (source.map PTask.ok) slots hnext]
  refine ⟨hb.1, ?_⟩
  show ((phaseA sched fuel 0 (fillSlots max (source.map PTask.ok))
      ((source.map PTask.ok).drop max)).outs ++
    (phaseB sched fuel
      (phaseA sched fuel 0 (fillSlots max (source.map PTask.ok))
        ((source.map PTask.ok).drop max)).tEnd slots
      (phaseA sched fuel 0 (fillSlots max (source.map PTask.ok))
        ((source.map PTask.ok).drop max)).remEnd).outs).Perm source
  have h1 := List.Perm.append_left
    (phaseA sched fuel 0 (fillSlots max (source.map PTask.ok))
      ((source.map PTask.ok).drop max)).outs hb.2
  have h2 := h1.trans hperm
  have h3 : okVals ((source.map PTask.ok).drop max) = source.drop max := by
    rw [← List.map_drop, okVals_map_ok]
  rw [pendingVals_fillSlots_ok, h3] at h2
  have h4 : source.take max ++ source.drop max = source := List.take_append_drop max source
  rw [h4] at h2
  exact h2

/-! ## Claim C1: scheduler completeness -/

/-- Claim C1: for a source of `ok` tasks (resolving promises), a limit
`max ≥ 1`, and fuel covering the run length, the run finishes and its output
stream is a permutation of the source values — one outcome per operation,
none duplicated, none missing, in completion order chosen by the schedule.
For an empty source the output is empty and no state of the run ever holds a
started operation. -/
theorem scheduler_completeness_c1 {τ : Type} (sched : Nat → Nat) (fuel max : Nat)
    (source : List τ) (hmax : 1 ≤ max) (hfuel : source.length + max + 2 ≤ fuel) :
    ((parallelRun sched fuel max (source.map PTask.ok)).finished = true ∧
      ((parallelRun sched fuel max (source.map PTask.ok)).outs).Perm source) ∧
    (source = [] →
      (parallelRun sched fuel max (source.map PTask.ok)).outs = [] ∧
      ∀ st ∈ (parallelRun sched fuel max (source.map PTask.ok)).trace,
        inflightOf st = 0) := by
  refine ⟨parallelRun_ok sched fuel max source hmax hfuel, ?_⟩
  intro hsrc
  subst hsrc
  simp only [List.map_nil]
  have hpfree : ∀ v : τ, WrapSlot.pending v ∉ fillSlots max ([] : List (PTask τ)) := by
    intro v hc
    exact absurd (fillSlots_nil_mem max _ hc) (by simp)
  have ha := phaseA_pending_free sched fuel 0 (fillSlots max ([] : List (PTask τ)))
    (([] : List (PTask τ)).drop max) hpfree
  rcases hnext : (phaseA sched fuel 0 (fillSlots max ([] : List (PTask τ)))
      (([] : List (PTask τ)).drop max)).next with _ | slots
  · rw [parallelRun_next_none sched fuel max ([] : List (PTask τ)) hnext]
    exact ⟨ha.1, fun st hst =>
      inflight_zero_of_pending_free (ha.2.1 st hst)⟩
  · rw [parallelRun_next_some sched fuel max ([] : List (PTask τ)) slots hnext]
    have hb := phaseB_pending_free sched fuel
      (phaseA sched fuel 0 (fillSlots max ([] : List (PTask τ)))
        (([] : List (PTask τ)).drop max)).tEnd slots
      (phaseA sched fuel 0 (fillSlots max ([] : List (PTask τ)))
        (([] : List (PTask τ)).drop max)).remEnd (ha.2.2 slots hnext)
    constructor
    · show (phaseA sched fuel 0 (fillSlots max ([] : List (PTask τ)))
          (([] : List (PTask τ)).drop max)).outs ++
        (phaseB sched fuel
          (phaseA sched fuel 0 (fillSlots max ([] : List (PTask τ)))
            (([] : List (PTask τ)).drop max)).tEnd slots
          (phaseA sched fuel 0 (fillSlots max ([] : List (PTask τ)))
            (([] : List (PTask τ)).drop max)).remEnd).outs = []
      rw [ha.1, hb.1]
      rfl
    · intro st hst
      rcases List.mem_append.mp hst with h | h
      · exact inflight_zero_of_pending_free (ha.2.1 st h)
      · exact inflight_zero_of_pending_free (hb.2 st h)

theorem scheduler_completeness_c1_witness :
    ((parallelRun (fun _ => 0) 10 1 ([10, 20].map PTask.ok)).finished = true ∧
      ((parallelRun (fun _ => 0) 10 1 ([10, 20].map PTask.ok)).outs).Perm [10, 20]) ∧
    (([10, 20] : List Nat) = [] →
      (parallelRun (fun _ => 0) 10 1 ([10, 20].map PTask.ok)).outs = [] ∧
      ∀ st ∈ (parallelRun (fun _ => 0) 10 1 ([10, 20].map PTask.ok)).trace,
        inflightOf st = 0) :=
  scheduler_completeness_c1 (fun _ => 0) 10 1 [10, 20] (by decide) (by decide)

/-! ## Claim C2: concurrency bound -/

/-- Claim C2: at every recorded instant of any run — any schedule, any fuel,
any limit, any source — the number of started-but-uncompleted operations is
at most the limit `max`, and at most the number of operations remaining
(unstarted plus in-flight). -/
theorem concurrency_bound_c2 {τ : Type} (sched : Nat → Nat) (fuel max : Nat)
    (source : List (PTask τ)) :
    ∀ st ∈ (parallelRun sched fuel max source).trace,
      inflightOf st ≤ max ∧
      inflightOf st ≤ st.remaining.length + inflightOf st := by
  intro st hst
  constructor
  · have hlen := parallelRun_trace_len sched fuel max source st hst
    have hcp : inflightOf st ≤ st.slots.length := List.countP_le_length _
    rw [hlen] at hcp
    exact hcp
  · exact Nat.le_add_left _ _

theorem concurrency_bound_c2_witness :
    inflightOf (⟨[some (WrapSlot.pending 1), some (WrapSlot.pending 2)],
      [PTask.ok 3]⟩ : SchedState Nat) ≤ 2 ∧
    inflightOf (⟨[some (WrapSlot.pending 1), some (WrapSlot.pending 2)],
      [PTask.ok 3]⟩ : SchedState Nat) ≤
      (⟨[some (WrapSlot.pending 1), some (WrapSlot.pending 2)],
        [PTask.ok 3]⟩ : SchedState Nat).remaining.length +
      inflightOf (⟨[some (WrapSlot.pending 1), some (WrapSlot.pending 2)],
        [PTask.ok 3]⟩ : SchedState Nat) :=
  concurrency_bound_c2 (fun _ => 0) 10 2 [PTask.ok 1, PTask.ok 2, PTask.ok 3]
    ⟨[some (WrapSlot.pending 1), some (WrapSlot.pending 2)], [PTask.ok 3]⟩ (by decide)

/-! ## Claim C10: zero or negative limit hangs -/

/-- Claim C10: the input validation for `parallel` rejects only `NaN`, so
zero and negative limits are accepted; for such a limit the fill loop runs no
iteration, the first race is over an empty promise array and suspends
forever: for every fuel the run is unfinished, yields nothing, and every
recorded state shows an empty slot array with the whole source unpulled (no
operation ever started). -/
theorem zero_limit_c10 {τ : Type} (sched : Nat → Nat) (fuel : Nat) (limit : Int)
    (source : List (PTask τ)) (hlim : limit ≤ 0) :
    parallelInputAccepted (some limit) = true ∧
    (parallelRunInt sched fuel limit source).finished = false ∧
    (parallelRunInt sched fuel limit source).outs = [] ∧
    ∀ st ∈ (parallelRunInt sched fuel limit source).trace,
      st.slots = [] ∧ st.remaining = source := by
  have htn : limit.toNat = 0 := Int.toNat_of_nonpos hlim
  refine ⟨rfl, ?_⟩
  unfold parallelRunInt
  rw [htn]
  cases fuel with
  | zero =>
    have hz : (phaseA sched 0 0 (fillSlots 0 source) (source.drop 0)).next = none := rfl
    rw [parallelRun_next_none sched 0 0 source hz]
    exact ⟨rfl, rfl, fun st hst => absurd hst (by simp [phaseA_zero])⟩
  | succ fuel =>
    have hwnone : raceWinner sched 0 (fillSlots 0 source) = none := rfl
    have ha := phaseA_none sched fuel 0 (fillSlots 0 source) (source.drop 0) hwnone
    rw [parallelRun_next_none sched (fuel + 1) 0 source (by rw [ha])]
    rw [ha]
    refine ⟨rfl, rfl, ?_⟩
    intro st hst
    simp only [List.mem_singleton] at hst
    subst hst
    exact ⟨rfl, List.drop_zero source⟩

theorem zero_limit_c10_witness :
    parallelInputAccepted (some (-3 : Int)) = true ∧
    (parallelRunInt (fun _ => 0) 5 (-3) [(PTask.ok 1 : PTask Nat)]).finished = false ∧
    (parallelRunInt (fun _ => 0) 5 (-3) [(PTask.ok 1 : PTask Nat)]).outs = [] ∧
    ∀ st ∈ (parallelRunInt (fun _ => 0) 5 (-3) [(PTask.ok 1 : PTask Nat)]).trace,
      st.slots = [] ∧ st.remaining = [PTask.ok 1] :=
  zero_limit_c10 (fun _ => 0) 5 (-3) [PTask.ok 1] (by decide)

/-! ## Claim C3: unexpected, non-store errors -/

/-- Claim C3 (amended): an unexpected non-store error is rethrown by the
executor — the returned promise rejects with it and no outcome is produced.
Inside the scheduler, however, `wrap` chains only a fulfillment handler onto
the task promise, so the wrapper of a rejecting task never settles: the
rejection is never delivered to the consumer of the output stream and the
run never completes for any fuel (the `for await` loop stays suspended once
only rejected slots remain).  The process dies only through the runtime's
unhandled-rejection handling, not through the output stream. -/
theorem fatal_error_c3 :
    (∀ (client : S3ClientO) (bucket pfx subPath msg : String)
        (metadata : List (String × String)),
      client (S3Command.copyObject bucket (bucket ++ "/" ++ (pfx ++ "/" ++ subPath))
          (pfx ++ "/" ++ subPath) "REPLACE" "text/html" metadata) =
        SendResult.otherError msg →
      (copyS3ObjectWithMetadataAsync client bucket pfx subPath metadata).2 =
        Except.error msg) ∧
    (∀ (client : S3ClientO) (bucket pfx subPath msg : String)
        (metadata : List (String × String)),
      client (S3Command.putObject bucket (pfx ++ "/" ++ subPath)
          "<!doctype html><title>?</title>" "text/html"
          (recordSet metadata "redirect-failure" "not-found")) =
        SendResult.otherError msg →
      (createNewS3ObjectAsync client bucket pfx subPath metadata).2 =
        Except.error msg) ∧
    (∀ (τ : Type) (sched : Nat → Nat) (fuel max : Nat) (source : List (PTask τ)),
      PTask.err ∈ source →
      (parallelRun sched fuel max source).finished = false) := by
  refine ⟨?_, ?_, ?_⟩
  · intro client bucket pfx subPath msg metadata hc
    unfold copyS3ObjectWithMetadataAsync
    simp only [hc]
  · intro client bucket pfx subPath msg metadata hc
    unfold createNewS3ObjectAsync
    simp only [hc]
  · intro τ sched fuel max source hmem
    have hdone0 := done_mem_fillSlots max source
    have herr0 := err_fillSlots max source hmem
    rcases phaseA_stuck_run sched fuel 0 (fillSlots max source) (source.drop max)
      hdone0 herr0 with h | ⟨slots, hnext, hstuck⟩
    · rw [parallelRun_next_none sched fuel max source h]
    · rw [parallelRun_next_some sched fuel max source slots hnext]
      exact phaseB_stuck_run sched fuel
        (phaseA sched fuel 0 (fillSlots max source) (source.drop max)).tEnd slots
        (phaseA sched fuel 0 (fillSlots max source) (source.drop max)).remEnd hstuck

theorem fatal_error_c3_witness :
    (copyS3ObjectWithMetadataAsync (fun _ => SendResult.otherError "boom")
      "bk" "p" "k" []).2 = Except.error "boom" ∧
    (parallelRun (fun _ => 0) 10 1 [(PTask.err : PTask Nat)]).finished = false :=
  ⟨fatal_error_c3.1 (fun _ => SendResult.otherError "boom") "bk" "p" "k" "boom" [] rfl,
   fatal_error_c3.2.2 Nat (fun _ => 0) 10 1 [PTask.err] (by decide)⟩

/-- Claim C3 counterexample to the original wording: a one-task source whose
promise rejects, run with limit 1 and ample fuel (1 task + 1 slot need 4
steps when every promise settles).  The consumer never observes the error —
no outcome at all is yielded — and the run does not end: the generator is
still suspended in `Promise.race` over the never-settling wrapper, so the
pipeline hangs rather than observing the propagated error. -/
theorem fatal_error_c3_counterexample :
    (parallelRun (fun _ => 0) 10 1 [(PTask.err : PTask Nat)]).outs = [] ∧
    (parallelRun (fun _ => 0) 10 1 [(PTask.err : PTask Nat)]).finished = false := by
  decide

/-! ## Claim C8: store-error containment and the final tally -/

/-- Claim C8: a structured store error is caught and carried on the outcome
(`copied` tells which path failed), the operation still counts as done, and
a run over any outcomes (with or without errors) completes with the final
error tally equal to the number of outcomes carrying an error — zero when
none fails. -/
theorem store_error_containment_c8 :
    (∀ (client : S3ClientO) (bucket pfx subPath : String)
        (metadata : List (String × String)) (e : S3ServiceExceptionE),
      client (S3Command.copyObject bucket (bucket ++ "/" ++ (pfx ++ "/" ++ subPath))
          (pfx ++ "/" ++ subPath) "REPLACE" "text/html" metadata) =
        SendResult.serviceError e →
      (copyS3ObjectWithMetadataAsync client bucket pfx subPath metadata).2 =
        Except.ok { copied := true, subPath := subPath, error := some e }) ∧
    (∀ (client : S3ClientO) (bucket pfx subPath : String)
        (metadata : List (String × String)) (e : S3ServiceExceptionE),
      client (S3Command.putObject bucket (pfx ++ "/" ++ subPath)
          "<!doctype html><title>?</title>" "text/html"
          (recordSet metadata "redirect-failure" "not-found")) =
        SendResult.serviceError e →
      (createNewS3ObjectAsync client bucket pfx subPath metadata).2 =
        Except.ok { copied := false, subPath := subPath, error := some e }) ∧
    (∀ (sched : Nat → Nat) (fuel max : Nat) (ops : List S3Operation),
      1 ≤ max → ops.length + max + 2 ≤ fuel →
      (parallelRun sched fuel max (ops.map PTask.ok)).finished = true ∧
      errorTally ((parallelRun sched fuel max (ops.map PTask.ok)).outs) =
        ops.countP (fun o => o.error.isSome) ∧
      ((∀ o ∈ ops, o.error = none) →
        errorTally ((parallelRun sched fuel max (ops.map PTask.ok)).outs) = 0)) := by
  refine ⟨?_, ?_, ?_⟩
  · intro client bucket pfx subPath metadata e hc
    unfold copyS3ObjectWithMetadataAsync
    simp only [hc]
  · intro client bucket pfx subPath metadata e hc
    unfold createNewS3ObjectAsync
    simp only [hc]
  · intro sched fuel max ops hmax hfuel
    have h := parallelRun_ok sched fuel max ops hmax hfuel
    have htally : errorTally ((parallelRun sched fuel max (ops.map PTask.ok)).outs) =
        ops.countP (fun o => o.error.isSome) := by
      rw [errorTally_eq_countP]
      exact h.2.countP_eq _
    refine ⟨h.1, htally, ?_⟩
    intro hnone
    rw [htally, List.countP_eq_zero]
    intro o ho
    rw [hnone o ho]
    simp

theorem store_error_containment_c8_witness :
    (copyS3ObjectWithMetadataAsync (fun _ => SendResult.serviceError ⟨"denied"⟩)
      "bk" "p" "k" []).2 =
      Except.ok { copied := true, subPath := "k", error := some ⟨"denied"⟩ } ∧
    errorTally ((parallelRun (fun _ => 0) 10 1
      (([⟨true, "a", none⟩, ⟨false, "b", some ⟨"m"⟩⟩] : List S3Operation).map
        PTask.ok)).outs) =
      ([⟨true, "a", none⟩, ⟨false, "b", some ⟨"m"⟩⟩] : List S3Operation).countP
        (fun o => o.error.isSome) :=
  ⟨store_error_containment_c8.1 (fun _ => SendResult.serviceError ⟨"denied"⟩)
      "bk" "p" "k" [] ⟨"denied"⟩ rfl,
   (store_error_containment_c8.2.2 (fun _ => 0) 10 1
      [⟨true, "a", none⟩, ⟨false, "b", some ⟨"m"⟩⟩] (by decide) (by decide)).2.1⟩

/-! ## Supporting lemmas: grouping -/

theorem firstSeen_aux_mem (x : String) :
    ∀ (p : List Redirect) (acc : List String),
      (x ∈ p.foldl
          (fun acc r => if r.location ∈ acc then acc else acc ++ [r.location]) acc) ↔
        x ∈ acc ∨ x ∈ p.map (fun r => r.location) := by
  intro p
  induction p with
  | nil => intro acc; simp
  | cons r rest ih =>
    intro acc
    simp only [List.foldl_cons, List.map_cons, List.mem_cons]
    rw [ih]
    by_cases hm : r.location ∈ acc
    · rw [if_pos hm]
      constructor
      · rintro (h | h)
        · exact Or.inl h
        · exact Or.inr (Or.inr h)
      · rintro (h | h | h)
        · exact Or.inl h
        · exact Or.inl (h ▸ hm)
        · exact Or.inr h
    · rw [if_neg hm]
      constructor
      · rintro (h | h)
        · rcases List.mem_append.mp h with h | h
          · exact Or.inl h
          · simp only [List.mem_singleton] at h
            exact Or.inr (Or.inl h)
        · exact Or.inr (Or.inr h)
      · rintro (h | h | h)
        · exact Or.inl (List.mem_append.mpr (Or.inl h))
        · exact Or.inl (List.mem_append.mpr (Or.inr (by simp [h])))
        · exact Or.inr h

theorem mem_firstSeenLocations {x : String} {p : List Redirect} :
    x ∈ firstSeenLocations p ↔ x ∈ p.map (fun r => r.location) := by
  rw [firstSeenLocations, firstSeen_aux_mem]
  simp

theorem firstSeen_aux_nodup :
    ∀ (p : List Redirect) (acc : List String), acc.Nodup →
      (p.foldl
        (fun acc r => if r.location ∈ acc then acc else acc ++ [r.location]) acc).Nodup := by
  intro p
  induction p with
  | nil => intro acc h; exact h
  | cons r rest ih =>
    intro acc h
    simp only [List.foldl_cons]
    by_cases hm : r.location ∈ acc
    · rw [if_pos hm]
      exact ih acc h
    · rw [if_neg hm]
      refine ih _ (List.Nodup.append h (List.nodup_singleton _) ?_)
      intro a ha hb
      simp only [List.mem_singleton] at hb
      subst hb
      exact hm ha

theorem firstSeenLocations_nodup (p : List Redirect) : (firstSeenLocations p).Nodup :=
  firstSeen_aux_nodup p [] List.nodup_nil

theorem firstSeen_snoc (p : List Redirect) (r : Redirect) :
    firstSeenLocations (p ++ [r]) =
      if r.location ∈ firstSeenLocations p then firstSeenLocations p
      else firstSeenLocations p ++ [r.location] := by
  rw [firstSeenLocations, List.foldl_append]
  rfl

theorem filter_snoc_loc (p : List Redirect) (r : Redirect) (l : String) :
    (p ++ [r]).filter (fun q => q.location = l) =
      p.filter (fun q => q.location = l) ++ if r.location = l then [r] else [] := by
  rw [List.filter_append]
  congr 1
  by_cases hc : r.location = l
  · simp [hc]
  · simp [hc]

theorem mkGroups_keys (p : List Redirect) :
    (mkGroups p).map Prod.fst = firstSeenLocations p := by
  unfold mkGroups
  rw [List.map_map]
  have h1 : ∀ a ∈ firstSeenLocations p,
      (Prod.fst ∘ fun l => (l, p.filter (fun q => q.location = l))) a = a :=
    fun a _ => rfl
  exact (List.map_congr_left h1).trans (List.map_id _)

theorem mkGroups_snoc_not_mem {p : List Redirect} {r : Redirect}
    (h : r.location ∉ firstSeenLocations p) :
    mkGroups (p ++ [r]) = mkGroups p ++ [(r.location, [r])] := by
  unfold mkGroups
  rw [firstSeen_snoc, if_neg h, List.map_append]
  congr 1
  · apply List.map_congr_left
    intro l hl
    have hne : r.location ≠ l := fun hc => h (hc ▸ hl)
    rw [filter_snoc_loc, if_neg hne, List.append_nil]
  · simp only [List.map_cons, List.map_nil]
    rw [filter_snoc_loc, if_pos rfl]
    have hnil : p.filter (fun q => q.location = r.location) = [] := by
      rw [List.filter_eq_nil_iff]
      intro q hq hc
      simp only [decide_eq_true_eq] at hc
      exact h (mem_firstSeenLocations.mpr (List.mem_map.mpr ⟨q, hq, hc⟩))
    rw [hnil]
    rfl

theorem mkGroups_snoc_mem {p : List Redirect} {r : Redirect}
    (h : r.location ∈ firstSeenLocations p) :
    mkGroups (p ++ [r]) =
      (firstSeenLocations p).map (fun l =>
        (l, p.filter (fun q => q.location = l) ++
          if r.location = l then [r] else [])) := by
  unfold mkGroups
  rw [firstSeen_snoc, if_pos h]
  apply List.map_congr_left
  intro l _
  rw [filter_snoc_loc]

theorem insertRedirect_mkGroups (p : List Redirect) (r : Redirect) :
    insertRedirect (mkGroups p) r = mkGroups (p ++ [r]) := by
  unfold insertRedirect
  by_cases hm : r.location ∈ firstSeenLocations p
  · have hany : (mkGroups p).any (fun q => q.1 = r.location) = true := by
      rw [List.any_eq_true]
      have hk : r.location ∈ (mkGroups p).map Prod.fst := by
        rw [mkGroups_keys]
        exact hm
      rcases List.mem_map.mp hk with ⟨q, hq, he⟩
      exact ⟨q, hq, by simp [he]⟩
    rw [if_pos hany, mkGroups_snoc_mem hm]
    unfold mkGroups
    rw [List.map_map]
    apply List.map_congr_left
    intro l _
    simp only [Function.comp]
    by_cases hc : l = r.location
    · subst hc
      rw [if_pos rfl, if_pos rfl]
    · rw [if_neg hc, if_neg (Ne.symm hc), List.append_nil]
  · have hnot : ¬(mkGroups p).any (fun q => q.1 = r.location) = true := by
      rw [List.any_eq_true]
      rintro ⟨q, hq, he⟩
      simp only [decide_eq_true_eq] at he
      have hk : r.location ∈ (mkGroups p).map Prod.fst := List.mem_map.mpr ⟨q, hq, he⟩
      rw [mkGroups_keys] at hk
      exact hm hk
    rw [if_neg hnot]
    exact (mkGroups_snoc_not_mem hm).symm

theorem foldl_insert_mkGroups :
    ∀ (q p : List Redirect),
      List.foldl insertRedirect (mkGroups p) q = mkGroups (p ++ q) := by
  intro q
  induction q with
  | nil => intro p; simp
  | cons r rest ih =>
    intro p
    simp only [List.foldl_cons]
    rw [insertRedirect_mkGroups p r, ih (p ++ [r]), List.append_assoc]
    rfl

theorem groupRedirects_eq_mkGroups (rs : List Redirect) :
    groupRedirects rs = mkGroups rs := by
  have h := foldl_insert_mkGroups rs []
  rw [groupRedirects]
  have h0 : mkGroups [] = ([] : List (String × List Redirect)) := rfl
  rw [← h0]
  simpa using h

theorem flatMap_map_fn {α β γ : Type} (f : α → β) (g : β → List γ) (l : List α) :
    (l.map f).flatMap g = l.flatMap (fun a => g (f a)) := by
  induction l with
  | nil => rfl
  | cons a rest ih => simp [List.flatMap_cons, ih]

theorem flatMap_congr_fn {α β : Type} {l : List α} {f g : α → List β}
    (h : ∀ a ∈ l, f a = g a) : l.flatMap f = l.flatMap g := by
  induction l with
  | nil => rfl
  | cons a rest ih =>
    simp only [List.flatMap_cons]
    rw [h a (List.mem_cons_self _ _), ih (fun b hb => h b (List.mem_cons_of_mem _ hb))]

theorem flatMap_append_perm {α β : Type} (F : List α) (f g : α → List β) :
    (F.flatMap (fun l => f l ++ g l)).Perm (F.flatMap f ++ F.flatMap g) := by
  induction F with
  | nil => simp
  | cons a rest ih =>
    simp only [List.flatMap_cons]
    rw [List.append_assoc (f a) (g a), List.append_assoc (f a) (rest.flatMap f)]
    apply List.Perm.append_left
    have h2 := List.Perm.append_left (g a) ih
    refine h2.trans ?_
    rw [← List.append_assoc]
    have h3 : ((g a ++ rest.flatMap f) ++ rest.flatMap g).Perm
        ((rest.flatMap f ++ g a) ++ rest.flatMap g) :=
      List.Perm.append List.perm_append_comm (List.Perm.refl _)
    refine h3.trans ?_
    rw [List.append_assoc]

theorem flatMap_if_single {β : Type} (x : String) (ys : List β) :
    ∀ (F : List String), F.Nodup → x ∈ F →
      F.flatMap (fun l => if x = l then ys else []) = ys := by
  intro F
  induction F with
  | nil => intro _ h; simp at h
  | cons a rest ih =>
    intro hnd hm
    simp only [List.flatMap_cons]
    rcases List.mem_cons.mp hm with h | h
    · rw [if_pos h]
      have hrest : rest.flatMap (fun l => if x = l then ys else []) = [] := by
        rw [List.flatMap_eq_nil_iff]
        intro l hl
        rw [if_neg]
        intro hc
        exact (List.nodup_cons.mp hnd).1 (h ▸ hc ▸ hl)
      rw [hrest, List.append_nil]
    · have hne : x ≠ a := by
        intro hc
        exact (List.nodup_cons.mp hnd).1 (hc ▸ h)
      rw [if_neg hne, List.nil_append]
      exact ih (List.nodup_cons.mp hnd).2 h

theorem filter_flatMap_fn {α β : Type} (l : List α) (f : α → List β) (p : β → Bool) :
    (l.flatMap f).filter p = l.flatMap (fun a => (f a).filter p) := by
  induction l with
  | nil => rfl
  | cons a rest ih => simp [List.flatMap_cons, List.filter_append, ih]

theorem flatten_mkGroups_snoc (p : List Redirect) (r : Redirect) :
    (flattenGroups (mkGroups (p ++ [r]))).Perm (flattenGroups (mkGroups p) ++ [r]) := by
  by_cases hm : r.location ∈ firstSeenLocations p
  · rw [mkGroups_snoc_mem hm]
    rw [flattenGroups, flatMap_map_fn]
    have h1 := flatMap_append_perm (firstSeenLocations p)
      (fun l => p.filter (fun q => q.location = l))
      (fun l => if r.location = l then [r] else [])
    refine h1.trans ?_
    have h2 : (firstSeenLocations p).flatMap
        (fun l => if r.location = l then [r] else []) = [r] :=
      flatMap_if_single r.location [r] (firstSeenLocations p)
        (firstSeenLocations_nodup p) hm
    rw [h2]
    have h3 : (firstSeenLocations p).flatMap
        (fun l => p.filter (fun q => q.location = l)) = flattenGroups (mkGroups p) := by
      rw [flattenGroups]
      unfold mkGroups
      rw [flatMap_map_fn]
    rw [h3]
  · rw [mkGroups_snoc_not_mem hm]
    rw [flattenGroups, List.flatMap_append]
    simp only [List.flatMap_cons, List.flatMap_nil, List.append_nil]
    exact List.Perm.refl _

theorem flatten_mkGroups_perm (rs : List Redirect) :
    (flattenGroups (mkGroups rs)).Perm rs := by
  induction rs using List.reverseRecOn with
  | nil => exact List.Perm.refl _
  | append_singleton p r ih =>
    exact (flatten_mkGroups_snoc p r).trans (List.Perm.append ih (List.Perm.refl [r]))

theorem flatten_mkGroups_filter (rs : List Redirect) (l : String) :
    (flattenGroups (mkGroups rs)).filter (fun r => r.location = l) =
      rs.filter (fun r => r.location = l) := by
  rw [flattenGroups]
  unfold mkGroups
  rw [flatMap_map_fn, filter_flatMap_fn]
  have hpt : ∀ l' ∈ firstSeenLocations rs,
      (rs.filter (fun q => q.location = l')).filter (fun q => q.location = l) =
        if l = l' then rs.filter (fun q => q.location = l) else [] := by
    intro l' _
    by_cases hc : l = l'
    · subst hc
      rw [if_pos rfl, List.filter_filter]
      apply List.filter_congr
      intro a _
      exact Bool.and_self _
    · rw [if_neg hc, List.filter_eq_nil_iff]
      intro q hq hcq
      simp only [decide_eq_true_eq] at hcq
      have hql := (List.mem_filter.mp hq).2
      simp only [decide_eq_true_eq] at hql
      exact hc (hcq ▸ hql)
  rw [flatMap_congr_fn hpt]
  by_cases hl : l ∈ firstSeenLocations rs
  · exact flatMap_if_single l (rs.filter (fun q => q.location = l))
      (firstSeenLocations rs) (firstSeenLocations_nodup rs) hl
  · have h1 : (firstSeenLocations rs).flatMap
        (fun l' => if l = l' then rs.filter (fun q => q.location = l) else []) = [] := by
      rw [List.flatMap_eq_nil_iff]
      intro l' hl'
      rw [if_neg]
      intro hc
      exact hl (hc ▸ hl')
    rw [h1]
    symm
    rw [List.filter_eq_nil_iff]
    intro q hq hcq
    simp only [decide_eq_true_eq] at hcq
    exact hl (mem_firstSeenLocations.mpr (List.mem_map.mpr ⟨q, hq, hcq⟩))

/-! ## Claim C7: grouping stability -/

/-- Claim C7: flattening the groups in group order and within-group order
yields a permutation of the input; the rules at each location appear in the
flattened list exactly in their original relative order (the filter by any
location is unchanged); group iteration order is the order in which each
distinct location was first encountered; no rule is dropped.  The final
conjunct checks a concrete mixed example. -/
theorem grouping_stability_c7 (rs : List Redirect) :
    (flattenGroups (groupRedirects rs)).Perm rs ∧
    (∀ l, (flattenGroups (groupRedirects rs)).filter (fun r => r.location = l) =
      rs.filter (fun r => r.location = l)) ∧
    (groupRedirects rs).map Prod.fst = firstSeenLocations rs ∧
    groupRedirects [⟨"/x", none, "/y"⟩, ⟨"/w", none, "/v"⟩, ⟨"/x", some "p1", "/z"⟩] =
      [("/x", [⟨"/x", none, "/y"⟩, ⟨"/x", some "p1", "/z"⟩]),
       ("/w", [⟨"/w", none, "/v"⟩])] := by
  refine ⟨?_, ?_, ?_, by decide⟩
  · rw [groupRedirects_eq_mkGroups]
    exact flatten_mkGroups_perm rs
  · intro l
    rw [groupRedirects_eq_mkGroups]
    exact flatten_mkGroups_filter rs l
  · rw [groupRedirects_eq_mkGroups]
    exact mkGroups_keys rs
